import Mathlib

/-!
Verification development for the ParseKIT delimited-text / structured-record
converter.  Strings are modelled as `List Char`; JavaScript values are
modelled by the inductive type `JsValue` below; JavaScript numbers are
modelled exactly (as rationals plus NaN and signed infinities), so numeric
string grammars are captured precisely while double rounding is out of scope.

Each definition mirrors one function of the source (`src/js/csvToJson.js`,
`src/js/jsonToCsv.js`, `src/js/validator.js`, and the extended converter
revision in `src/unnamed/part_000`); the source function is named in the
doc comment of each definition.
-/

/-- JavaScript whitespace characters recognised by `String.prototype.trim`
and by the `Number` conversion (the common ones; exotic Unicode space
code points do not occur in any input considered here). -/
def isJsWS (c : Char) : Bool :=
  c = ' ' || c = '\t' || c = '\n' || c = '\r' || c = '\x0b' || c = '\x0c' ||
  c = ' ' || c = '﻿'

/-- `s.trim()`: drop JS whitespace from both ends. -/
def trimWS (l : List Char) : List Char :=
  ((l.dropWhile isJsWS).reverse.dropWhile isJsWS).reverse

/-- Split a character list on a single character, JS `String.prototype.split`
semantics: the empty string splits to one empty part. -/
def splitOnChar (sep : Char) : List Char → List (List Char)
  | [] => [[]]
  | c :: rest =>
    match splitOnChar sep rest with
    | [] => [[]]
    | p :: ps => if c = sep then [] :: p :: ps else (c :: p) :: ps

/-- Drop one trailing carriage return, if present. -/
def dropCR (l : List Char) : List Char :=
  match l.reverse with
  | '\r' :: r => r.reverse
  | _ => l

/-- `csvString.split(/\r?\n/)`: split on newlines, each part stripped of a
single trailing carriage return (equivalent to the source's regex split). -/
def splitLines (l : List Char) : List (List Char) :=
  (splitOnChar '\n' l).map dropCR

/-- The quote-aware field scanner of `parseLine` (csvToJson.js, lines
154-194), producing the raw field strings.  The source pushes each closed
field onto a result array and processes it with `processField` as it is
pushed; here the raw fields are returned and `processField` is mapped over
them afterwards (`parseLine` below), which yields the same row. -/
def parseLineAux (delim : Char) : List Char → Bool → List Char → List (List Char)
  | [], _, cur => [cur]
  | '"' :: '"' :: rest2, true, cur => parseLineAux delim rest2 true (cur ++ ['"'])
  | '"' :: rest, inQ, cur => parseLineAux delim rest (!inQ) cur
  | c :: rest, inQ, cur =>
    if c = delim ∧ inQ = false then
      cur :: parseLineAux delim rest inQ []
    else
      parseLineAux delim rest inQ (cur ++ [c])

/-- `parseLine` without the per-field type coercion: the Field Tokenizer of
csvToJson.js on one line. -/
def parseLineRaw (delim : Char) (line : List Char) : List (List Char) :=
  parseLineAux delim line false []

/-- JS `string.includes(c)` for a single character. -/
def containsChar (l : List Char) (c : Char) : Bool := l.contains c

/-- The quoting condition of `escapeValue` (jsonToCsv.js, lines 252-256),
with the default quote character `"`. -/
def needsQuoting (delim : Char) (s : List Char) : Bool :=
  containsChar s delim || containsChar s '"' || containsChar s '\n' ||
  containsChar s '\r'

/-- `stringValue.replace(new RegExp(quoteChar, 'g'), quoteChar + quoteChar)`
for the default quote character: double every quote. -/
def doubleQuotes : List Char → List Char
  | [] => []
  | c :: rest => if c = '"' then '"' :: '"' :: doubleQuotes rest else c :: doubleQuotes rest

/-- `escapeValue` (jsonToCsv.js, lines 248-268) with the default quote
character `"`: wrap in quotes, doubling embedded quotes, exactly when the
string contains the delimiter, a quote, a newline or a carriage return. -/
def escapeValue (delim : Char) (s : List Char) : List Char :=
  if needsQuoting delim s then '"' :: (doubleQuotes s ++ ['"']) else s

lemma parseLineAux_quoted (delim : Char) (s : List Char) :
    ∀ cur, parseLineAux delim (doubleQuotes s ++ ['"']) true cur = [cur ++ s] := by
  induction s with
  | nil =>
    intro cur
    simp [doubleQuotes, parseLineAux]
  | cons c s ih =>
    intro cur
    by_cases hc : c = '"'
    · subst hc
      rw [show doubleQuotes ('"' :: s) = '"' :: '"' :: doubleQuotes s by
        simp [doubleQuotes]]
      rw [List.cons_append, List.cons_append, parseLineAux, ih]
      simp
    · rw [show doubleQuotes (c :: s) = c :: doubleQuotes s by
        simp [doubleQuotes, hc]]
      rw [List.cons_append, parseLineAux.eq_def]
      split
      all_goals simp_all [ih]

lemma parseLineAux_plain (delim : Char) (s : List Char)
    (h1 : s.contains '"' = false) (h2 : s.contains delim = false) :
    ∀ cur, parseLineAux delim s false cur = [cur ++ s] := by
  induction s with
  | nil => intro cur; simp [parseLineAux]
  | cons c s ih =>
    intro cur
    simp only [List.contains_cons, Bool.or_eq_false_iff, beq_eq_false_iff_ne,
      ne_eq] at h1 h2
    rw [parseLineAux.eq_def]
    split
    all_goals simp_all
    intro h
    subst h
    simp_all

lemma parseLineAux_open (delim : Char) (rest cur : List Char) :
    parseLineAux delim ('"' :: rest) false cur = parseLineAux delim rest true cur := by
  rw [parseLineAux.eq_def]
  split
  all_goals simp_all
  rename_i hne heq
  exact absurd heq.1.symm hne

/-- C1: for every delimiter and every string `s`, `escapeValue` returns the
quoted form with every embedded quote doubled when `s` contains the
delimiter, the quote character, a newline or a carriage return, returns `s`
unquoted otherwise, and tokenizing the escaped output as a single line with
the Field Tokenizer (`parseLineRaw`, no type coercion) yields back exactly
the one original string `s`. -/
theorem c1_escapeValue_roundtrip (delim : Char) (s : List Char) :
    parseLineRaw delim (escapeValue delim s) = [s] ∧
    escapeValue delim s =
      (if needsQuoting delim s then '"' :: (doubleQuotes s ++ ['"']) else s) := by
  refine ⟨?_, rfl⟩
  unfold parseLineRaw escapeValue
  by_cases h : needsQuoting delim s
  · rw [if_pos h, parseLineAux_open]
    exact parseLineAux_quoted delim s []
  · rw [if_neg h]
    simp only [needsQuoting, containsChar, Bool.or_eq_true, not_or,
      Bool.not_eq_true] at h
    exact parseLineAux_plain delim s h.1.1.2 h.1.1.1 []

/-! ## JavaScript values and numbers -/

/-- JavaScript numbers, modelled exactly: NaN, the two infinities, and
finite values as rationals (double rounding is not modelled; no claim
depends on it). -/
inductive JsNum where
  | nan
  | posInf
  | negInf
  | finite (q : ℚ)
deriving DecidableEq

/-- `true` exactly on finite JavaScript numbers. -/
def jsNumIsFinite : JsNum → Bool
  | .finite _ => true
  | _ => false

/-- JSON-style JavaScript values. -/
inductive JsValue where
  | null
  | bool (b : Bool)
  | num (n : JsNum)
  | str (s : List Char)
  | arr (elems : List JsValue)
  | obj (entries : List (List Char × JsValue))

/-- Numeric value of a digit character in bases up to 16. -/
def hexDigitVal (c : Char) : Nat :=
  if c.isDigit then c.toNat - '0'.toNat
  else if 'a' ≤ c ∧ c ≤ 'f' then c.toNat - 'a'.toNat + 10
  else if 'A' ≤ c ∧ c ≤ 'F' then c.toNat - 'A'.toNat + 10
  else 0

def isHexDigit (c : Char) : Bool :=
  c.isDigit || ('a' ≤ c && c ≤ 'f') || ('A' ≤ c && c ≤ 'F')

def isBinDigit (c : Char) : Bool := c = '0' || c = '1'

def isOctDigit (c : Char) : Bool := '0' ≤ c && c ≤ '7'

/-- Value of a digit string in the given base. -/
def natOfDigits (base : Nat) (ds : List Char) : Nat :=
  ds.foldl (fun acc c => acc * base + hexDigitVal c) 0

/-- Parse a non-empty all-digit string in the given base, else fail. -/
def parseBaseDigits (base : Nat) (valid : Char → Bool) (ds : List Char) : JsNum :=
  if ds ≠ [] ∧ ds.all valid then .finite (natOfDigits base ds) else .nan

/-- Exponent suffix of the decimal numeric-string grammar: empty, or
`e`/`E` followed by an optionally signed non-empty digit string that
consumes the rest of the input. -/
def parseExpPart : List Char → Option Int
  | [] => some 0
  | c :: r =>
    if c = 'e' ∨ c = 'E' then
      match r with
      | '+' :: ds => if ds ≠ [] ∧ ds.all Char.isDigit then some (natOfDigits 10 ds) else none
      | '-' :: ds => if ds ≠ [] ∧ ds.all Char.isDigit then some (-(natOfDigits 10 ds : Int)) else none
      | ds => if ds ≠ [] ∧ ds.all Char.isDigit then some (natOfDigits 10 ds) else none
    else none

/-- Exact rational value of integer digits, fraction digits and a decimal
exponent. -/
def decValue (d1 d2 : List Char) (e : Int) : ℚ :=
  ((natOfDigits 10 d1 : ℚ) + (natOfDigits 10 d2 : ℚ) / (10 : ℚ) ^ d2.length) * (10 : ℚ) ^ e

/-- `StrUnsignedDecimalLiteral`: `Infinity`, or decimal digits with an
optional fraction and exponent. -/
def parseUnsignedDec (r : List Char) : JsNum :=
  if r = "Infinity".toList then .posInf
  else
    let d1 := r.takeWhile Char.isDigit
    let r2 := r.drop d1.length
    match r2 with
    | '.' :: r3 =>
      let d2 := r3.takeWhile Char.isDigit
      let r4 := r3.drop d2.length
      if d1 = [] ∧ d2 = [] then .nan
      else
        match parseExpPart r4 with
        | some e => .finite (decValue d1 d2 e)
        | none => .nan
    | _ =>
      if d1 = [] then .nan
      else
        match parseExpPart r2 with
        | some e => .finite (decValue d1 [] e)
        | none => .nan

/-- Negation on JavaScript numbers. -/
def jsNeg : JsNum → JsNum
  | .nan => .nan
  | .posInf => .negInf
  | .negInf => .posInf
  | .finite q => .finite (-q)

/-- Signed decimal string literal. -/
def parseSignedDec (t : List Char) : JsNum :=
  match t with
  | '+' :: r => parseUnsignedDec r
  | '-' :: r => jsNeg (parseUnsignedDec r)
  | _ => parseUnsignedDec t

/-- The `Number(string)` conversion (`StringNumericLiteral` semantics):
trim, empty to zero, `0x`/`0b`/`0o` radix literals, otherwise a signed
decimal literal with optional fraction, exponent, or `Infinity`. -/
def jsStrToNum (l : List Char) : JsNum :=
  let t := trimWS l
  if t = [] then .finite 0
  else
    match t with
    | '0' :: c :: rest =>
      if c = 'x' ∨ c = 'X' then parseBaseDigits 16 isHexDigit rest
      else if c = 'b' ∨ c = 'B' then parseBaseDigits 2 isBinDigit rest
      else if c = 'o' ∨ c = 'O' then parseBaseDigits 8 isOctDigit rest
      else parseSignedDec t
    | _ => parseSignedDec t

/-! ## Value coercion (csvToJson `processField`) -/

/-- The conversion options of `CSVToJSONConverter` (the fields exercised by
the claims; defaults as in the source constructor). -/
structure CsvOptions where
  delimiter : Option Char := none
  hasHeaders : Bool := true
  trimValues : Bool := true
  parseNumbers : Bool := true
  parseBooleans : Bool := true
  parseNulls : Bool := true
  customHeaders : Option (List (List Char)) := none
  skipEmptyLines : Bool := true

/-- JS `toLowerCase` on the ASCII range. -/
def toLowerList (l : List Char) : List Char := l.map Char.toLower

/-- `processField` (csvToJson.js, lines 201-226): trim if enabled, then
null, boolean, and number coercion in order, each only when enabled; the
number branch mirrors `const num = Number(value); if (!isNaN(num)) return num`
guarded by `value !== ''`. -/
def processField (opts : CsvOptions) (field : List Char) : JsValue :=
  let value := if opts.trimValues then trimWS field else field
  if opts.parseNulls ∧ (value = "null".toList ∨ value = "NULL".toList ∨ value = []) then
    .null
  else if opts.parseBooleans ∧ toLowerList value = "true".toList then .bool true
  else if opts.parseBooleans ∧ toLowerList value = "false".toList then .bool false
  else if opts.parseNumbers ∧ value ≠ [] ∧ jsStrToNum value ≠ .nan then
    .num (jsStrToNum value)
  else .str value

/-- The Field Tokenizer with coercion: `parseLine` of csvToJson.js. -/
def parseLine (opts : CsvOptions) (delim : Char) (line : List Char) : List JsValue :=
  (parseLineRaw delim line).map (processField opts)

/-- The ordered rule chain as the specification states it (amended: the
number rule fires when the value converts to any non-NaN number, finite or
not): trim, then the null rule, the boolean rule, the number rule, first
match winning, else keep the string. -/
def ruleNull (opts : CsvOptions) (v : List Char) : Option JsValue :=
  if opts.parseNulls ∧ (v = "null".toList ∨ v = "NULL".toList ∨ v = []) then some .null
  else none

def ruleBool (opts : CsvOptions) (v : List Char) : Option JsValue :=
  if opts.parseBooleans ∧ toLowerList v = "true".toList then some (.bool true)
  else if opts.parseBooleans ∧ toLowerList v = "false".toList then some (.bool false)
  else none

def ruleNumber (opts : CsvOptions) (v : List Char) : Option JsValue :=
  if opts.parseNumbers ∧ v ≠ [] ∧ jsStrToNum v ≠ .nan then some (.num (jsStrToNum v))
  else none

/-- First-match-wins chaining of the three enabled rules. -/
def coerceChain (opts : CsvOptions) (v : List Char) : JsValue :=
  match ruleNull opts v with
  | some x => x
  | none =>
    match ruleBool opts v with
    | some x => x
    | none =>
      match ruleNumber opts v with
      | some x => x
      | none => .str v

/-- Specification-side coercion chain (trim first, then first match wins). -/
def coerceValueSpec (opts : CsvOptions) (field : List Char) : JsValue :=
  coerceChain opts (if opts.trimValues then trimWS field else field)

/-- C2 (amended): `processField` applies the coercion rules in order with
first match winning, each rule only when its option is enabled: trim, then
null for the empty string or literal `null`/`NULL`, then boolean for
exactly `true`/`false` after lowercasing, then a number whenever the value
converts to a non-NaN number under the numeric-string grammar (this
includes the non-finite values `Infinity`/`-Infinity`, which is where the
original claim's word "finite" fails), otherwise the string unchanged. -/
theorem c2_processField_rule_chain (opts : CsvOptions) (field : List Char) :
    processField opts field = coerceValueSpec opts field := by
  unfold processField coerceValueSpec coerceChain ruleNull ruleBool ruleNumber
  set v := if opts.trimValues = true then trimWS field else field with hv
  by_cases h1 : opts.parseNulls = true ∧
      (v = "null".toList ∨ v = "NULL".toList ∨ v = [])
  · rw [if_pos h1, if_pos h1]
  · rw [if_neg h1, if_neg h1]
    by_cases h2 : opts.parseBooleans = true ∧ toLowerList v = "true".toList
    · rw [if_pos h2, if_pos h2]
    · rw [if_neg h2, if_neg h2]
      by_cases h3 : opts.parseBooleans = true ∧ toLowerList v = "false".toList
      · rw [if_pos h3, if_pos h3]
      · rw [if_neg h3, if_neg h3]
        by_cases h4 : opts.parseNumbers = true ∧ ¬v = [] ∧ ¬jsStrToNum v = JsNum.nan
        · rw [if_pos h4, if_pos h4]
        · rw [if_neg h4, if_neg h4]

/-- C2 counterexample to the claim as stated: with default options the raw
field `Infinity` is coerced to the number `Infinity`, which is not a finite
numeric value, so "a number only when the value parses as a finite numeric
literal" does not hold of the code. -/
theorem c2_infinity_counterexample :
    processField {} "Infinity".toList = JsValue.num JsNum.posInf ∧
    jsNumIsFinite JsNum.posInf = false :=
  ⟨rfl, rfl⟩

/-! ## Delimiter detection (csvToJson `detectDelimiter`) -/

/-- Quote-aware occurrence count of `detectDelimiter` (csvToJson.js, lines
95-109): `"` toggles the quote state, the delimiter is counted only outside
quotes. -/
def countQuoteAware (delim : Char) : List Char → Bool → Nat
  | [], _ => 0
  | c :: rest, inQ =>
    if c = '"' then countQuoteAware delim rest (!inQ)
    else if c = delim ∧ inQ = false then countQuoteAware delim rest inQ + 1
    else countQuoteAware delim rest inQ

/-- The sample: first five non-blank lines. -/
def sampleLines (csv : List Char) : List (List Char) :=
  ((splitLines csv).filter (fun l => !(trimWS l).isEmpty)).take 5

/-- The fixed candidate list of the source. -/
def delimiterCandidates : List Char := [',', ';', '\t', '|']

/-- Per-candidate statistics: the candidate, its consistency (fraction of
sampled lines whose count equals the first line's count) and its
first-line count. -/
def candidateStats (lines : List (List Char)) (d : Char) : Char × ℚ × Nat :=
  let counts := lines.map (fun l => countQuoteAware d l false)
  let fc := counts.headD 0
  (d, (counts.countP (fun c => c = fc) : ℚ) / counts.length, fc)

/-- The selection loop of `detectDelimiter`: keep the best candidate seen,
replacing it when a candidate has strictly higher consistency and a
positive first-line count. -/
def detectFold : List (Char × ℚ × Nat) → Option Char → ℚ → Option Char
  | [], best, _ => best
  | t :: rest, best, m =>
    if t.2.1 > m ∧ 0 < t.2.2 then detectFold rest (some t.1) t.2.1
    else detectFold rest best m

/-- `detectDelimiter` (csvToJson.js, lines 85-123). -/
def detectDelimiter (csv : List Char) : Option Char :=
  let lines := sampleLines csv
  if lines = [] then none
  else detectFold (delimiterCandidates.map (candidateStats lines)) none 0

/-- Candidates that survive the claim's rejection rule (positive first-line
count). -/
def eligibleCands (l : List (Char × ℚ × Nat)) : List (Char × ℚ × Nat) :=
  l.filter (fun t => 0 < t.2.2)

/-- Highest consistency among eligible candidates (zero when none). -/
def maxCons (l : List (Char × ℚ × Nat)) : ℚ :=
  (eligibleCands l).foldr (fun t acc => max t.2.1 acc) 0

/-- Earliest eligible candidate attaining a given consistency. -/
def firstWith (l : List (Char × ℚ × Nat)) (M : ℚ) : Option Char :=
  ((eligibleCands l).find? (fun t => t.2.1 = M)).map (fun t => t.1)

/-- Specification-side selection: reject zero first-line-count candidates,
pick the highest consistency, ties broken by earliest position, failure
when no candidate survives. -/
def detectDelimiterSpec (csv : List Char) : Option Char :=
  let lines := sampleLines csv
  if lines = [] then none
  else
    let cands := delimiterCandidates.map (candidateStats lines)
    if eligibleCands cands = [] then none
    else firstWith cands (maxCons cands)

lemma firstWith_cons_skip (t : Char × ℚ × Nat) (rest : List (Char × ℚ × Nat))
    (M : ℚ) (h : eligibleCands (t :: rest) = t :: eligibleCands rest)
    (hne : ¬t.2.1 = M) : firstWith (t :: rest) M = firstWith rest M := by
  unfold firstWith
  rw [h, List.find?_cons, decide_eq_false hne]

lemma firstWith_cons_hit (t : Char × ℚ × Nat) (rest : List (Char × ℚ × Nat))
    (M : ℚ) (h : eligibleCands (t :: rest) = t :: eligibleCands rest)
    (heq : t.2.1 = M) : firstWith (t :: rest) M = some t.1 := by
  unfold firstWith
  rw [h, List.find?_cons, decide_eq_true heq]
  rfl

lemma firstWith_cons_pass (t : Char × ℚ × Nat) (rest : List (Char × ℚ × Nat))
    (M : ℚ) (h : eligibleCands (t :: rest) = eligibleCands rest) :
    firstWith (t :: rest) M = firstWith rest M := by
  unfold firstWith
  rw [h]

lemma detectFold_spec :
    ∀ (l : List (Char × ℚ × Nat)) (best : Option Char) (m : ℚ), 0 ≤ m →
      detectFold l best m =
        if maxCons l > m then firstWith l (maxCons l) else best := by
  intro l
  induction l with
  | nil =>
    intro best m hm
    have h0 : ¬(maxCons ([] : List (Char × ℚ × Nat)) > m) := by
      have : maxCons ([] : List (Char × ℚ × Nat)) = 0 := rfl
      rw [this]
      exact not_lt.mpr hm
    rw [if_neg h0]
    rfl
  | cons t rest ih =>
    intro best m hm
    by_cases he : 0 < t.2.2
    · have helig : eligibleCands (t :: rest) = t :: eligibleCands rest := by
        simp [eligibleCands, List.filter_cons, he]
      have hmax : maxCons (t :: rest) = max t.2.1 (maxCons rest) := by
        unfold maxCons
        rw [helig]
        rfl
      by_cases hc : t.2.1 > m
      · rw [detectFold, if_pos ⟨hc, he⟩,
          ih (some t.1) t.2.1 (le_of_lt (lt_of_le_of_lt hm hc))]
        have hgt : maxCons (t :: rest) > m := by
          rw [hmax]; exact lt_of_lt_of_le hc (le_max_left _ _)
        rw [if_pos hgt]
        by_cases hr : maxCons rest > t.2.1
        · rw [if_pos hr]
          have hM : maxCons (t :: rest) = maxCons rest := by
            rw [hmax]; exact max_eq_right (le_of_lt hr)
          rw [firstWith_cons_skip t rest _ helig (by rw [hM]; exact ne_of_lt hr), hM]
        · rw [if_neg hr]
          have hM : maxCons (t :: rest) = t.2.1 := by
            rw [hmax]; exact max_eq_left (not_lt.mp hr)
          exact (firstWith_cons_hit t rest _ helig hM.symm).symm
      · rw [detectFold, if_neg (by tauto), ih best m hm]
        have hle : t.2.1 ≤ m := not_lt.mp hc
        by_cases hr : maxCons rest > m
        · have hM : maxCons (t :: rest) = maxCons rest := by
            rw [hmax]
            exact max_eq_right (le_of_lt (lt_of_le_of_lt hle hr))
          rw [if_pos hr, if_pos (by rw [hM]; exact hr)]
          rw [firstWith_cons_skip t rest _ helig
            (by rw [hM]; exact ne_of_lt (lt_of_le_of_lt hle hr)), hM]
        · have hiff : ¬(maxCons (t :: rest) > m) := by
            rw [hmax]
            intro hlt
            rcases lt_max_iff.mp hlt with h | h
            · exact hc h
            · exact hr h
          rw [if_neg hr, if_neg hiff]
    · have helig : eligibleCands (t :: rest) = eligibleCands rest := by
        simp [eligibleCands, List.filter_cons, he]
      have hmax : maxCons (t :: rest) = maxCons rest := by
        unfold maxCons
        rw [helig]
      rw [detectFold, if_neg (by tauto), ih best m hm, hmax]
      by_cases hr : maxCons rest > m
      · rw [if_pos hr, if_pos hr, firstWith_cons_pass t rest _ helig]
      · rw [if_neg hr, if_neg hr]

lemma candidateStats_cons_pos (lines : List (List Char)) (d : Char)
    (h : lines ≠ []) : 0 < (candidateStats lines d).2.1 := by
  obtain ⟨l0, ls, rfl⟩ := List.exists_cons_of_ne_nil h
  simp only [candidateStats, List.map_cons, List.headD_cons]
  apply div_pos
  · have : 0 < (countQuoteAware d l0 false :: ls.map (fun l => countQuoteAware d l false)).countP
        (fun c => decide (c = countQuoteAware d l0 false)) := by
      rw [List.countP_cons]
      simp
    exact_mod_cast this
  · have : 0 < (countQuoteAware d l0 false :: ls.map (fun l => countQuoteAware d l false)).length := by
      simp
    exact_mod_cast this

lemma foldr_max_attained :
    ∀ (L : List (Char × ℚ × Nat)), L ≠ [] → (∀ t ∈ L, 0 < t.2.1) →
      0 < L.foldr (fun t acc => max t.2.1 acc) 0 ∧
      ∃ t ∈ L, t.2.1 = L.foldr (fun t acc => max t.2.1 acc) 0 := by
  intro L
  induction L with
  | nil => intro h; exact absurd rfl h
  | cons t rest ih =>
    intro _ hpos
    have hp := hpos t (List.mem_cons_self _ _)
    by_cases hrn : rest = []
    · subst hrn
      refine ⟨?_, t, List.mem_cons_self _ _, ?_⟩
      · show (0:ℚ) < max t.2.1 0
        exact lt_max_of_lt_left hp
      · show t.2.1 = max t.2.1 0
        exact (max_eq_left (le_of_lt hp)).symm
    · obtain ⟨hpr, u, hu, huM⟩ := ih hrn (fun x hx => hpos x (List.mem_cons_of_mem _ hx))
      simp only [List.foldr_cons]
      constructor
      · exact lt_max_of_lt_right hpr
      · by_cases hcmp : rest.foldr (fun t acc => max t.2.1 acc) 0 ≤ t.2.1
        · exact ⟨t, List.mem_cons_self _ _, (max_eq_left hcmp).symm⟩
        · exact ⟨u, List.mem_cons_of_mem _ hu,
            huM.trans (max_eq_right (le_of_lt (not_le.mp hcmp))).symm⟩

/-- C3: `detectDelimiter` counts, for each candidate in the fixed list,
quote-aware occurrences per sampled line, rejects candidates with
first-line count zero, and returns the earliest candidate of highest
consistency (fraction of sampled lines matching the first line's count) —
formally it coincides with the specification-side selection on every
input; concretely it returns `,`, `;` and failure on the three inputs the
specification names. -/
theorem c3_detectDelimiter_selection :
    (∀ csv : List Char, detectDelimiter csv = detectDelimiterSpec csv) ∧
    detectDelimiter "a,b,c\n1,2,3\n4,5,6".toList = some ',' ∧
    detectDelimiter "a;b;c\n1;2;3".toList = some ';' ∧
    detectDelimiter "abc\ndef".toList = none := by
  refine ⟨?_, ?_, ?_, ?_⟩
  case refine_2 =>
    rw [show "a,b,c\n1,2,3\n4,5,6".toList =
      ['a', ',', 'b', ',', 'c', '\n', '1', ',', '2', ',', '3', '\n',
       '4', ',', '5', ',', '6'] from rfl]
    have hs : sampleLines ['a', ',', 'b', ',', 'c', '\n', '1', ',', '2', ',', '3', '\n',
        '4', ',', '5', ',', '6'] =
        [['a', ',', 'b', ',', 'c'], ['1', ',', '2', ',', '3'], ['4', ',', '5', ',', '6']] := by
      decide
    simp only [detectDelimiter, hs]
    simp [candidateStats, countQuoteAware, delimiterCandidates]
    norm_num [detectFold]
  case refine_3 =>
    rw [show "a;b;c\n1;2;3".toList =
      ['a', ';', 'b', ';', 'c', '\n', '1', ';', '2', ';', '3'] from rfl]
    have hs : sampleLines ['a', ';', 'b', ';', 'c', '\n', '1', ';', '2', ';', '3'] =
        [['a', ';', 'b', ';', 'c'], ['1', ';', '2', ';', '3']] := by
      decide
    simp only [detectDelimiter, hs]
    simp [candidateStats, countQuoteAware, delimiterCandidates]
    norm_num [detectFold]
  case refine_4 =>
    rw [show "abc\ndef".toList = ['a', 'b', 'c', '\n', 'd', 'e', 'f'] from rfl]
    have hs : sampleLines ['a', 'b', 'c', '\n', 'd', 'e', 'f'] =
        [['a', 'b', 'c'], ['d', 'e', 'f']] := by
      decide
    simp only [detectDelimiter, hs]
    simp [candidateStats, countQuoteAware, delimiterCandidates, detectFold]
  intro csv
  unfold detectDelimiter detectDelimiterSpec
  by_cases h : sampleLines csv = []
  · rw [if_pos h, if_pos h]
  · rw [if_neg h, if_neg h]
    rw [detectFold_spec _ none 0 le_rfl]
    set cands := delimiterCandidates.map (candidateStats (sampleLines csv)) with hcands
    have hposall : ∀ t ∈ eligibleCands cands, 0 < t.2.1 := by
      intro t ht
      have : t ∈ cands := List.mem_of_mem_filter ht
      rw [hcands] at this
      obtain ⟨d, -, rfl⟩ := List.mem_map.mp this
      exact candidateStats_cons_pos _ d h
    by_cases helig : eligibleCands cands = []
    · rw [if_pos helig]
      have : maxCons cands = 0 := by
        rw [maxCons, helig]
        rfl
      rw [this]
      simp
    · rw [if_neg helig]
      obtain ⟨hpos, -⟩ := foldr_max_attained (eligibleCands cands) helig hposall
      have : maxCons cands > 0 := hpos
      rw [if_pos this]

/-! ## Row normalization and record building (C4) -/

/-- JS object property assignment on an ordered association list: replace
the value in place when the key exists, append the pair otherwise. -/
def setEntry : List (List Char × JsValue) → List Char → JsValue → List (List Char × JsValue)
  | [], k, x => [(k, x)]
  | (k2, w) :: rest, k, x =>
    if k2 = k then (k2, x) :: rest else (k2, w) :: setEntry rest k x

/-- One iteration of the `rowsToJSON` loop (csvToJson.js, lines 237-247):
for each header in order, bind it to the positional row value, or `null`
past the end of the row.  The source indexes `row[i]`; walking the header
and row lists in step is the same traversal. -/
def buildRecordAux : List (List Char) → List JsValue → List (List Char × JsValue) →
    List (List Char × JsValue)
  | [], _, obj => obj
  | h :: hs, vals, obj =>
    let v := match vals with
      | [] => JsValue.null
      | x :: _ => x
    buildRecordAux hs vals.tail (setEntry obj h v)

/-- `rowsToJSON` (csvToJson.js, lines 234-247) with the default `array`
output format (the `object` wrapper merely re-indexes the same records). -/
def rowsToJSON (headers : List (List Char)) (rows : List (List JsValue)) :
    List (List (List Char × JsValue)) :=
  rows.map (fun row => buildRecordAux headers row [])

/-- `normalizeRowLengths` (part_000, lines 895-909): pad a short row with
`null`, truncate a long one. -/
def normalizeRowLengths (rows : List (List JsValue)) (expected : Nat) :
    List (List JsValue) :=
  rows.map (fun row =>
    if row.length = expected then row
    else if row.length < expected then
      row ++ List.replicate (expected - row.length) JsValue.null
    else row.take expected)

/-- Specification-side shape of a normalized row: the first `n` fields,
padded with `Null` to length `n`. -/
def padTruncate (row : List JsValue) (n : Nat) : List JsValue :=
  row.take n ++ List.replicate (n - row.length) JsValue.null

lemma normalize_eq_padTruncate (row : List JsValue) (n : Nat) :
    (if row.length = n then row
     else if row.length < n then row ++ List.replicate (n - row.length) JsValue.null
     else row.take n) = padTruncate row n := by
  unfold padTruncate
  by_cases h1 : row.length = n
  · rw [if_pos h1, List.take_of_length_le (le_of_eq h1), h1]
    simp
  · rw [if_neg h1]
    by_cases h2 : row.length < n
    · rw [if_pos h2, List.take_of_length_le (le_of_lt h2)]
    · rw [if_neg h2]
      have : n - row.length = 0 := Nat.sub_eq_zero_of_le (le_of_not_lt h2)
      rw [this]
      simp

lemma padTruncate_length (row : List JsValue) (n : Nat) :
    (padTruncate row n).length = n := by
  unfold padTruncate
  rw [List.length_append, List.length_take, List.length_replicate]
  omega

lemma setEntry_append (l : List (List Char × JsValue)) (k : List Char) (x : JsValue)
    (h : k ∉ l.map Prod.fst) : setEntry l k x = l ++ [(k, x)] := by
  induction l with
  | nil => rfl
  | cons p rest ih =>
    simp only [List.map_cons, List.mem_cons] at h
    rw [setEntry, if_neg (fun he => h (Or.inl he.symm)), ih (fun hm => h (Or.inr hm))]
    rfl

lemma buildRecordAux_zip :
    ∀ (hs : List (List Char)) (vals : List JsValue) (acc : List (List Char × JsValue)),
      hs.Nodup → vals.length = hs.length →
      (∀ k ∈ hs, k ∉ acc.map Prod.fst) →
      buildRecordAux hs vals acc = acc ++ hs.zip vals := by
  intro hs
  induction hs with
  | nil => intro vals acc _ _ _; simp [buildRecordAux]
  | cons h hs ih =>
    intro vals acc hnd hlen hdisj
    match vals with
    | [] => exact absurd hlen (by simp)
    | v :: vs =>
      rw [buildRecordAux]
      simp only [List.tail_cons]
      rw [setEntry_append acc h v (hdisj h (List.mem_cons_self _ _))]
      rw [ih vs (acc ++ [(h, v)]) (List.nodup_cons.mp hnd).2 (by simpa using hlen)
        (by
          intro k hk
          simp only [List.map_append, List.mem_append, List.map_cons, List.map_nil,
            List.mem_singleton, not_or]
          refine ⟨hdisj k (List.mem_cons_of_mem _ hk), ?_⟩
          intro hmem
          have hkh : k = h := by simpa using hmem
          exact (List.nodup_cons.mp hnd).1 (hkh ▸ hk))]
      simp [List.append_assoc]

/-- C4: with a duplicate-free Column Set (field-name uniqueness is an
invariant of the data model), every record emitted by composing
`normalizeRowLengths` with `rowsToJSON` binds precisely the header keys in
header order, a short row being padded with `Null` and a long row
truncated: the output is exactly the headers zipped with the
padded/truncated row. -/
theorem c4_records_have_column_set (headers : List (List Char))
    (rows : List (List JsValue)) (hnd : headers.Nodup) :
    rowsToJSON headers (normalizeRowLengths rows headers.length) =
      rows.map (fun row => headers.zip (padTruncate row headers.length)) ∧
    ∀ obj ∈ rowsToJSON headers (normalizeRowLengths rows headers.length),
      obj.map Prod.fst = headers := by
  have hmain : rowsToJSON headers (normalizeRowLengths rows headers.length) =
      rows.map (fun row => headers.zip (padTruncate row headers.length)) := by
    unfold rowsToJSON normalizeRowLengths
    rw [List.map_map]
    apply List.map_congr_left
    intro row _
    simp only [Function.comp_apply]
    rw [normalize_eq_padTruncate]
    rw [buildRecordAux_zip headers (padTruncate row headers.length) [] hnd
      (padTruncate_length row headers.length) (by simp)]
    rfl
  refine ⟨hmain, ?_⟩
  intro obj hobj
  rw [hmain] at hobj
  obtain ⟨row, -, rfl⟩ := List.mem_map.mp hobj
  exact List.map_fst_zip _ _ (le_of_eq (padTruncate_length row headers.length).symm)

/-- C4 witness: a concrete short row is padded and a concrete long row
truncated, each record binding exactly the two header keys in order. -/
theorem c4_records_witness :
    ([['a'], ['b']] : List (List Char)).Nodup ∧
    rowsToJSON [['a'], ['b']]
        (normalizeRowLengths [[JsValue.bool true],
          [JsValue.bool false, JsValue.null, JsValue.bool true]] 2) =
      [[(['a'], JsValue.bool true), (['b'], JsValue.null)],
       [(['a'], JsValue.bool false), (['b'], JsValue.null)]] := by
  constructor
  · decide
  · have h := (c4_records_have_column_set [['a'], ['b']]
      [[JsValue.bool true], [JsValue.bool false, JsValue.null, JsValue.bool true]]
      (by decide)).1
    rw [show (([['a'], ['b']] : List (List Char)).length) = 2 from rfl] at h
    rw [h]
    rfl

/-! ## The extended tokenizer's backslash-delimiter escape (C6) -/

/-- The quote-aware field scanner of the extended revision's `parseLine`
(part_000, lines 608-655), raw fields: identical to `parseLineAux` except
that, outside quotes, a backslash immediately followed by the delimiter
emits one literal delimiter character and consumes both characters.  As in
the source, the quote branch and the field-separator branch are tested
before the backslash branch. -/
def parseLineExtAux (delim : Char) : List Char → Bool → List Char → List (List Char)
  | [], _, cur => [cur]
  | '"' :: '"' :: rest2, true, cur => parseLineExtAux delim rest2 true (cur ++ ['"'])
  | '"' :: rest, inQ, cur => parseLineExtAux delim rest (!inQ) cur
  | '\\' :: c2 :: rest2, false, cur =>
    if '\\' = delim then cur :: parseLineExtAux delim (c2 :: rest2) false []
    else if c2 = delim then parseLineExtAux delim rest2 false (cur ++ [delim])
    else parseLineExtAux delim (c2 :: rest2) false (cur ++ ['\\'])
  | c :: rest, inQ, cur =>
    if c = delim ∧ inQ = false then
      cur :: parseLineExtAux delim rest inQ []
    else
      parseLineExtAux delim rest inQ (cur ++ [c])

/-- The extended revision's Field Tokenizer on one line, raw fields. -/
def parseLineExtRaw (delim : Char) (line : List Char) : List (List Char) :=
  parseLineExtAux delim line false []

/-- C6 (amended): in the extended revision's tokenizer (part_000
`parseLine`), outside quotes, a backslash immediately followed by the
delimiter emits one literal delimiter into the current field and consumes
both characters instead of closing the field — provided the delimiter is
not itself the backslash character, since the field-separator branch is
tested first.  (The basic tokenizer of csvToJson.js has no such rule; see
the counterexample.) -/
theorem c6_backslash_escape (delim : Char) (rest cur : List Char)
    (hd : delim ≠ '\\') :
    parseLineExtAux delim ('\\' :: delim :: rest) false cur =
      parseLineExtAux delim rest false (cur ++ [delim]) := by
  rw [parseLineExtAux.eq_def]
  split
  all_goals simp_all
  · intro h
    exact absurd h.symm hd
  · rename_i heq hno
    exact absurd heq.2.symm (hno delim rest heq.1.symm)

/-- C6 witness: escaping a comma in `a\,b` keeps one field in the extended
tokenizer's scan. -/
theorem c6_backslash_escape_witness :
    (',' : Char) ≠ '\\' ∧
    parseLineExtAux ',' ['\\', ',', 'b'] false ['a'] =
      parseLineExtAux ',' ['b'] false ['a', ','] :=
  ⟨by decide, c6_backslash_escape ',' ['b'] ['a'] (by decide)⟩

/-- C6 counterexample to the claim as stated: the basic Field Tokenizer
(csvToJson.js `parseLine`, also cited by the claim) has no backslash rule —
on `a\,b` it closes the field at the comma, yielding two fields `a\` and
`b` rather than one field `a,b`. -/
theorem c6_basic_tokenizer_counterexample :
    parseLineRaw ',' ['a', '\\', ',', 'b'] = [['a', '\\'], ['b']] ∧
    parseLineRaw ',' ['a', '\\', ',', 'b'] ≠ [['a', ',', 'b']] := by
  constructor
  · rfl
  · decide

/-! ## Validator: malformed-quote detection (C7) -/

/-- The escape-tracking quote counter of `checkMalformedQuotes`
(validator.js, lines 327-339): a quote is counted only when the `escaped`
flag is off; a backslash toggles the flag; any other character clears it. -/
def countQuotesEsc : List Char → Bool → Nat
  | [], _ => 0
  | c :: rest, escaped =>
    if c = '"' ∧ escaped = false then countQuotesEsc rest false + 1
    else if c = '\\' then countQuotesEsc rest (!escaped)
    else countQuotesEsc rest false

/-- The `forEach` loop of `checkMalformedQuotes`: push `idx + 1` for every
line whose quote count is odd. -/
def checkMalformedQuotesAux : List (List Char) → Nat → List Nat
  | [], _ => []
  | l :: rest, idx =>
    if countQuotesEsc l false % 2 ≠ 0 then
      (idx + 1) :: checkMalformedQuotesAux rest (idx + 1)
    else checkMalformedQuotesAux rest (idx + 1)

/-- `checkMalformedQuotes` (validator.js, lines 324-348): the one-based
indices of lines whose quote count is odd. -/
def checkMalformedQuotes (lines : List (List Char)) : List Nat :=
  checkMalformedQuotesAux lines 0

/-- Specification-side count of unescaped quote characters: a quote
character is unescaped exactly when the run of consecutive backslashes
immediately before it has even length; `run` carries the length of the
current backslash run. -/
def unescQuoteCount : List Char → Nat → Nat
  | [], _ => 0
  | c :: rest, run =>
    if c = '"' then (if Even run then 1 else 0) + unescQuoteCount rest 0
    else if c = '\\' then unescQuoteCount rest (run + 1)
    else unescQuoteCount rest 0

lemma countQuotesEsc_eq_unesc :
    ∀ (l : List Char) (run : Nat), countQuotesEsc l (decide (Odd run)) = unescQuoteCount l run := by
  intro l
  induction l with
  | nil => intro run; rfl
  | cons c rest ih =>
    intro run
    have h0 : countQuotesEsc rest false = unescQuoteCount rest 0 := by
      simpa using ih 0
    by_cases hq : c = '"'
    · subst hq
      by_cases he : Even run
      · have hparf : (decide (Odd run)) = false := by
          simp [Nat.not_odd_iff_even.mpr he]
        rw [countQuotesEsc, if_pos ⟨rfl, hparf⟩, unescQuoteCount, if_pos rfl,
          if_pos he]
        omega
      · have hpart : (decide (Odd run)) = true := by
          simp [Nat.not_even_iff_odd.mp he]
        rw [countQuotesEsc, if_neg (by simp [hpart]), if_neg (by decide),
          unescQuoteCount, if_pos rfl, if_neg he]
        simpa using h0
    · by_cases hb : c = '\\'
      · subst hb
        rw [countQuotesEsc, if_neg (by simp [hq]), if_pos rfl, unescQuoteCount,
          if_neg hq, if_pos rfl]
        have hpar : (!decide (Odd run)) = decide (Odd (run + 1)) := by
          simp only [Nat.odd_iff]
          rcases Nat.mod_two_eq_zero_or_one run with h | h <;>
            simp [h, Nat.add_mod]
        rw [hpar, ih]
      · rw [countQuotesEsc, if_neg (by simp [hq]), if_neg hb, unescQuoteCount,
          if_neg hq, if_neg hb]
        exact h0

/-- Kinds of validator messages (the messages' text and line numbers are
not needed by any claim). -/
inductive VKind where
  | emptyContent
  | noData
  | noDelimiter
  | emptyHeader
  | inconsistentColumns
  | emptyRows
  | malformedQuotes
deriving DecidableEq

structure ValidationResult where
  errors : List VKind
  warnings : List VKind
deriving DecidableEq

/-- Occurrence count used by the validator's `detectDelimiter`
(validator.js, line 269): `(line.match(new RegExp(delimiter, 'g')) || []).length`.
For the literal characters `,`, `;` and tab this counts occurrences; for
`|` the regex is an empty alternation that matches the empty string at
every position, so the count is the line length plus one. -/
def countRegex (d : Char) (line : List Char) : Nat :=
  if d = '|' then line.length + 1 else line.countP (fun c => c = d)

/-- Per-candidate statistics of the validator's detector: the candidate,
its consistency (fraction of sampled lines whose count equals the first
line's count) and the average count. -/
def validatorStats (lines : List (List Char)) (d : Char) : Char × ℚ × ℚ :=
  let counts := lines.map (countRegex d)
  ⟨d, (counts.countP (fun c => c = counts.headD 0) : ℚ) / counts.length,
    (counts.sum : ℚ) / counts.length⟩

/-- The validator detector's selection loop: replace the best candidate
when consistency is strictly higher and the average count positive. -/
def validatorDetectFold : List (Char × ℚ × ℚ) → Option Char → ℚ → Option Char
  | [], best, _ => best
  | t :: rest, best, m =>
    if t.2.1 > m ∧ t.2.2 > 0 then validatorDetectFold rest (some t.1) t.2.1
    else validatorDetectFold rest best m

/-- `Validator.detectDelimiter` (validator.js, lines 259-283): like the
core detector but with regex-based (quote-blind) counts and an
average-positive eligibility test. -/
def validatorDetectDelimiter (content : List Char) : Option Char :=
  let lines := sampleLines content
  if lines = [] then none
  else validatorDetectFold (delimiterCandidates.map (validatorStats lines)) none 0

/-- `Validator.parseCSVLine` (validator.js, lines 291-317): the same
quote-aware scanner as the converter's `parseLine` (double quote inside
quotes emits a literal quote and consumes two characters; a delimiter
outside quotes closes the field), with raw string fields. -/
def parseCSVLine (line : List Char) (delim : Char) : List (List Char) :=
  parseLineAux delim line false []

/-- The line trimmed and with every delimiter character removed
(`line.trim().replace(new RegExp(delimiter, 'g'), '')`, validator.js line
169); for `|` the empty-alternation regex removes nothing. -/
def removeDelimChars (delim : Char) (l : List Char) : List Char :=
  if delim = '|' then l else l.filter (fun c => ¬c = delim)

/-- The non-blank lines `validateCSV` works over (validator.js line 119). -/
def vLines (content : List Char) : List (List Char) :=
  (splitLines content).filter (fun l => !(trimWS l).isEmpty)

/-- The one-based indices of data lines whose column count differs from the
header's (validator.js lines 152-158). -/
def vInconsistent (lines : List (List Char)) (delim : Char) (expected : Nat) : List Nat :=
  ((lines.enum.drop 1).filter
    (fun p => (parseCSVLine p.2 delim).length ≠ expected)).map (fun p => p.1 + 1)

/-- The one-based indices of lines that are empty once trimmed and stripped
of delimiter characters (validator.js lines 168-173). -/
def vEmptyRows (lines : List (List Char)) (delim : Char) : List Nat :=
  ((lines.enum).filter
    (fun p => (removeDelimChars delim (trimWS p.2)).length = 0)).map (fun p => p.1 + 1)

/-- `validateCSV` (validator.js, lines 105-192), with messages abstracted
to their kinds: empty-content, no-data and delimiter-detection errors
return early; otherwise inconsistent column counts and empty rows are
warnings and malformed quoting is an error. -/
def validateCSV (content : List Char) : ValidationResult :=
  if trimWS content = [] then ⟨[.emptyContent], []⟩
  else if vLines content = [] then ⟨[.noData], []⟩
  else
    match validatorDetectDelimiter content with
    | none => ⟨[.noDelimiter], []⟩
    | some delim =>
      if (parseCSVLine ((vLines content).headD []) delim).length = 0 then
        ⟨[.emptyHeader], []⟩
      else
        ⟨(if checkMalformedQuotes (vLines content) ≠ [] then [.malformedQuotes] else []),
         (if vInconsistent (vLines content) delim
              ((parseCSVLine ((vLines content).headD []) delim).length) ≠ [] then
            [VKind.inconsistentColumns] else []) ++
         (if vEmptyRows (vLines content) delim ≠ [] then [VKind.emptyRows] else [])⟩

lemma parseLineAux_esc (delim : Char) (rest2 cur : List Char) :
    parseLineAux delim ('"' :: '"' :: rest2) true cur =
      parseLineAux delim rest2 true (cur ++ ['"']) := rfl

lemma parseLineAux_other (delim c : Char) (rest : List Char) (inQ : Bool)
    (cur : List Char) (hc : ¬c = '"') :
    parseLineAux delim (c :: rest) inQ cur =
      if c = delim ∧ inQ = false then cur :: parseLineAux delim rest inQ []
      else parseLineAux delim rest inQ (cur ++ [c]) := by
  rw [parseLineAux.eq_def]
  split
  · rename_i heq
    exact absurd heq (by simp)
  · rename_i heq
    rw [List.cons.injEq] at heq
    exact absurd heq.1 hc
  · rename_i heq hno
    rw [List.cons.injEq] at heq
    exact absurd heq.1 hc
  · rename_i hq heq hno
    rw [List.cons.injEq] at heq
    rw [← heq.1, ← heq.2]

lemma parseLineAux_toggle (delim : Char) (rest : List Char) (inQ : Bool)
    (cur : List Char)
    (hno : ∀ rest2, rest = '"' :: rest2 → inQ = true → False) :
    parseLineAux delim ('"' :: rest) inQ cur = parseLineAux delim rest (!inQ) cur := by
  rw [parseLineAux.eq_def]
  split
  · rename_i heq
    exact absurd heq (by simp)
  · rename_i r2 heq
    rw [List.cons.injEq] at heq
    exact (hno r2 heq.2 rfl).elim
  · rename_i heq hX
    rw [List.cons.injEq] at heq
    rw [heq.2]
  · rename_i hq heq hX
    rw [List.cons.injEq] at heq
    exact (hq heq.1.symm).elim

lemma parseLineAux_ne_nil (delim : Char) (l : List Char) (b : Bool) (cur : List Char) :
    parseLineAux delim l b cur ≠ [] := by
  induction l, b, cur using parseLineAux.induct delim with
  | case1 b cur => simp [parseLineAux]
  | case2 rest2 cur ih => rw [parseLineAux_esc]; exact ih
  | case3 rest inQ cur hno ih => rw [parseLineAux_toggle delim rest inQ cur hno]; exact ih
  | case4 c rest inQ cur h1 h2 hcond ih =>
    rw [parseLineAux_other delim c rest inQ cur h2, if_pos hcond]
    simp
  | case5 c rest inQ cur h1 h2 hcond ih =>
    rw [parseLineAux_other delim c rest inQ cur h2, if_neg hcond]
    exact ih

lemma validatorFold_some :
    ∀ (l : List (Char × ℚ × ℚ)) (d : Char) (m : ℚ),
      validatorDetectFold l (some d) m ≠ none := by
  intro l
  induction l with
  | nil => intro d m h; exact Option.noConfusion h
  | cons t rest ih =>
    intro d m
    rw [validatorDetectFold]
    by_cases hc : t.2.1 > m ∧ t.2.2 > 0
    · rw [if_pos hc]; exact ih t.1 t.2.1
    · rw [if_neg hc]; exact ih d m

lemma validatorFold_triggers :
    ∀ (l : List (Char × ℚ × ℚ)) (m : ℚ),
      (∃ t ∈ l, t.2.1 > m ∧ t.2.2 > 0) → validatorDetectFold l none m ≠ none := by
  intro l
  induction l with
  | nil => rintro m ⟨t, ht, -⟩; exact absurd ht (List.not_mem_nil t)
  | cons u rest ih =>
    rintro m ⟨t, ht, htc⟩
    rw [validatorDetectFold]
    by_cases hc : u.2.1 > m ∧ u.2.2 > 0
    · rw [if_pos hc]; exact validatorFold_some rest u.1 u.2.1
    · rw [if_neg hc]
      rcases List.mem_cons.mp ht with rfl | hmem
      · exact absurd htc hc
      · exact ih m ⟨t, hmem, htc⟩

lemma validatorStats_pipe_pos (lines : List (List Char)) (h : lines ≠ []) :
    (validatorStats lines '|').2.1 > 0 ∧ (validatorStats lines '|').2.2 > 0 := by
  obtain ⟨l0, ls, rfl⟩ := List.exists_cons_of_ne_nil h
  unfold validatorStats
  constructor
  · apply div_pos
    · have : 0 < ((countRegex '|' l0 :: ls.map (countRegex '|')).countP
          (fun c => decide (c = (countRegex '|' l0 :: ls.map (countRegex '|')).headD 0))) := by
        rw [List.countP_cons]
        simp [List.headD_cons]
      exact_mod_cast this
    · have : 0 < (countRegex '|' l0 :: ls.map (countRegex '|')).length := by simp
      exact_mod_cast this
  · apply div_pos
    · have : 0 < (countRegex '|' l0 :: ls.map (countRegex '|')).sum := by
        have h1 : 0 < countRegex '|' l0 := by
          unfold countRegex
          simp
        have := List.sum_cons (l := ls.map (countRegex '|')) (a := countRegex '|' l0)
        omega
      exact_mod_cast this
    · have : 0 < (countRegex '|' l0 :: ls.map (countRegex '|')).length := by simp
      exact_mod_cast this

lemma validatorDetect_ne_none (content : List Char)
    (h : sampleLines content ≠ []) : validatorDetectDelimiter content ≠ none := by
  unfold validatorDetectDelimiter
  rw [if_neg h]
  apply validatorFold_triggers
  refine ⟨validatorStats (sampleLines content) '|', ?_, ?_⟩
  · exact List.mem_map.mpr ⟨'|', by simp [delimiterCandidates], rfl⟩
  · exact validatorStats_pipe_pos _ h

lemma countQuotesEsc_false_eq (l : List Char) :
    countQuotesEsc l false = unescQuoteCount l 0 := by
  have h := countQuotesEsc_eq_unesc l 0
  simpa using h

lemma checkMalformedQuotesAux_lower :
    ∀ (lines : List (List Char)) (idx j : Nat),
      j ∈ checkMalformedQuotesAux lines idx → idx < j := by
  intro lines
  induction lines with
  | nil => intro idx j h; exact absurd h (List.not_mem_nil j)
  | cons l rest ih =>
    intro idx j h
    rw [checkMalformedQuotesAux] at h
    by_cases hodd : countQuotesEsc l false % 2 ≠ 0
    · rw [if_pos hodd] at h
      rcases List.mem_cons.mp h with rfl | hmem
      · omega
      · have := ih (idx + 1) j hmem
        omega
    · rw [if_neg hodd] at h
      have := ih (idx + 1) j h
      omega

lemma checkMalformedQuotesAux_mem :
    ∀ (lines : List (List Char)) (idx i : Nat) (l : List Char),
      lines.get? i = some l →
      ((idx + i + 1) ∈ checkMalformedQuotesAux lines idx ↔
        Odd (unescQuoteCount l 0)) := by
  intro lines
  induction lines with
  | nil => intro idx i l h; exact absurd h (by simp)
  | cons x rest ih =>
    intro idx i l h
    rw [checkMalformedQuotesAux]
    match i, h with
    | 0, h =>
      have hx : x = l := by simpa using h
      subst hx
      by_cases hodd : countQuotesEsc x false % 2 ≠ 0
      · rw [if_pos hodd]
        constructor
        · intro _
          rw [← countQuotesEsc_false_eq, Nat.odd_iff]
          omega
        · intro _
          exact List.mem_cons_self _ _
      · rw [if_neg hodd]
        constructor
        · intro hmem
          have := checkMalformedQuotesAux_lower rest (idx + 1) _ hmem
          omega
        · intro hoddu
          rw [← countQuotesEsc_false_eq, Nat.odd_iff] at hoddu
          omega
    | Nat.succ i', h =>
      have h' : rest.get? i' = some l := by simpa using h
      have := ih (idx + 1) i' l h'
      have harith : idx + 1 + i' + 1 = idx + (i' + 1) + 1 := by omega
      rw [harith] at this
      by_cases hodd : countQuotesEsc x false % 2 ≠ 0
      · rw [if_pos hodd]
        rw [← this]
        constructor
        · intro hmem
          rcases List.mem_cons.mp hmem with heq | hmem2
          · omega
          · exact hmem2
        · intro hmem
          exact List.mem_cons_of_mem _ hmem
      · rw [if_neg hodd]
        exact this

lemma checkMalformedQuotesAux_nil_iff :
    ∀ (lines : List (List Char)) (idx : Nat),
      checkMalformedQuotesAux lines idx = [] ↔
        ∀ l ∈ lines, ¬Odd (unescQuoteCount l 0) := by
  intro lines
  induction lines with
  | nil => intro idx; simp [checkMalformedQuotesAux]
  | cons x rest ih =>
    intro idx
    rw [checkMalformedQuotesAux]
    by_cases hodd : countQuotesEsc x false % 2 ≠ 0
    · rw [if_pos hodd]
      simp only [List.mem_cons]
      constructor
      · intro h
        exact absurd h (List.cons_ne_nil _ _)
      · intro h
        have := h x (Or.inl rfl)
        rw [← countQuotesEsc_false_eq, Nat.odd_iff] at this
        omega
    · rw [if_neg hodd]
      rw [ih (idx + 1)]
      constructor
      · intro h l hl
        rcases List.mem_cons.mp hl with rfl | hmem
        · rw [← countQuotesEsc_false_eq, Nat.odd_iff]
          omega
        · exact h l hmem
      · intro h l hl
        exact h l (List.mem_cons_of_mem _ hl)

lemma trimWS_eq_nil_iff (l : List Char) : trimWS l = [] ↔ ∀ c ∈ l, isJsWS c := by
  unfold trimWS
  rw [List.reverse_eq_nil_iff, List.dropWhile_eq_nil_iff]
  constructor
  · intro h c hc
    have hsplit := List.takeWhile_append_dropWhile (p := isJsWS) (l := l)
    rw [← hsplit] at hc
    rcases List.mem_append.mp hc with htk | hdp
    · exact List.mem_takeWhile_imp htk
    · exact h c (List.mem_reverse.mpr hdp)
  · intro h c hc
    exact h c (List.Sublist.mem (List.mem_reverse.mp hc) (List.dropWhile_sublist _))

lemma splitOnChar_ne_nil (sep : Char) (l : List Char) : splitOnChar sep l ≠ [] := by
  induction l with
  | nil => simp [splitOnChar]
  | cons c rest ih =>
    rw [splitOnChar]
    match hrec : splitOnChar sep rest with
    | [] => simp
    | p :: ps =>
      dsimp only
      by_cases hc : c = sep
      · rw [if_pos hc]; simp
      · rw [if_neg hc]; simp

lemma mem_splitOnChar (sep c : Char) (hc : ¬c = sep) :
    ∀ l : List Char, c ∈ l → ∃ part ∈ splitOnChar sep l, c ∈ part := by
  intro l
  induction l with
  | nil => intro h; exact absurd h (List.not_mem_nil c)
  | cons d rest ih =>
    intro hm
    obtain ⟨p, ps, hrec⟩ : ∃ p ps, splitOnChar sep rest = p :: ps := by
      match hx : splitOnChar sep rest with
      | [] => exact absurd hx (splitOnChar_ne_nil sep rest)
      | p :: ps => exact ⟨p, ps, rfl⟩
    rw [splitOnChar, hrec]
    dsimp only
    rcases List.mem_cons.mp hm with rfl | hmem
    · rw [if_neg hc]
      exact ⟨c :: p, List.mem_cons_self _ _, List.mem_cons_self _ _⟩
    · obtain ⟨part, hpart, hcp⟩ := ih hmem
      rw [hrec] at hpart
      by_cases hd : d = sep
      · rw [if_pos hd]
        exact ⟨part, List.mem_cons_of_mem _ hpart, hcp⟩
      · rw [if_neg hd]
        rcases List.mem_cons.mp hpart with rfl | hp2
        · exact ⟨d :: part, List.mem_cons_self _ _, List.mem_cons_of_mem _ hcp⟩
        · exact ⟨part, List.mem_cons_of_mem _ hp2, hcp⟩

lemma mem_dropCR (part : List Char) (c : Char) (hc : ¬c = '\r') (h : c ∈ part) :
    c ∈ dropCR part := by
  unfold dropCR
  split
  · rename_i r heq
    have hp : part = r.reverse ++ ['\r'] := by
      rw [← List.reverse_reverse part, heq]
      simp
    rw [hp] at h
    rcases List.mem_append.mp h with h1 | h2
    · exact h1
    · exact absurd (List.mem_singleton.mp h2) hc
  · exact h

lemma vLines_ne_nil (content : List Char) (h : trimWS content ≠ []) :
    vLines content ≠ [] := by
  obtain ⟨c, hc, hws⟩ : ∃ c ∈ content, ¬isJsWS c := by
    by_contra hall
    push_neg at hall
    exact h ((trimWS_eq_nil_iff content).mpr (by simpa using hall))
  have hcn : ¬c = '\n' := fun he => hws (by rw [he]; rfl)
  have hcr : ¬c = '\r' := fun he => hws (by rw [he]; rfl)
  obtain ⟨part, hpart, hcp⟩ := mem_splitOnChar '\n' c hcn content hc
  have hline : dropCR part ∈ splitLines content := by
    unfold splitLines
    exact List.mem_map_of_mem dropCR hpart
  have hcl : c ∈ dropCR part := mem_dropCR part c hcr hcp
  have htr : trimWS (dropCR part) ≠ [] := by
    intro he
    exact hws ((trimWS_eq_nil_iff _).mp he c hcl)
  apply List.ne_nil_of_mem (a := dropCR part)
  unfold vLines
  rw [List.mem_filter]
  refine ⟨hline, ?_⟩
  simp [List.isEmpty_iff, htr]

lemma sampleLines_ne_nil (content : List Char) (h : trimWS content ≠ []) :
    sampleLines content ≠ [] := by
  have hv := vLines_ne_nil content h
  unfold sampleLines
  unfold vLines at hv
  obtain ⟨l0, ls, heq⟩ := List.exists_cons_of_ne_nil hv
  rw [heq]
  simp [List.take_cons]

/-- C7: the malformed-quote check flags a line as an error exactly when the
line's count of unescaped quote characters is odd: (a) `checkMalformedQuotes`
contains index `i + 1` iff line `i` has an odd unescaped-quote count; (b)
`validateCSV` never reports malformed quoting as a warning; (c) on any
non-blank input `validateCSV` reports the `MalformedQuoting` error iff some
checked line has an odd unescaped-quote count. -/
theorem c7_malformed_quote_check :
    (∀ (lines : List (List Char)) (i : Nat) (l : List Char),
      lines.get? i = some l →
      ((i + 1) ∈ checkMalformedQuotes lines ↔ Odd (unescQuoteCount l 0))) ∧
    (∀ content : List Char,
      VKind.malformedQuotes ∉ (validateCSV content).warnings) ∧
    (∀ content : List Char, trimWS content ≠ [] →
      (VKind.malformedQuotes ∈ (validateCSV content).errors ↔
        ∃ l ∈ vLines content, Odd (unescQuoteCount l 0))) := by
  refine ⟨?_, ?_, ?_⟩
  · intro lines i l h
    have := checkMalformedQuotesAux_mem lines 0 i l h
    simpa [checkMalformedQuotes] using this
  · intro content
    unfold validateCSV
    by_cases h1 : trimWS content = []
    · rw [if_pos h1]; simp
    · rw [if_neg h1]
      by_cases h2 : vLines content = []
      · rw [if_pos h2]; simp
      · rw [if_neg h2]
        split
        · simp
        · split_ifs <;> simp
  · intro content hne
    have hlines := vLines_ne_nil content hne
    have hdet := validatorDetect_ne_none content (sampleLines_ne_nil content hne)
    unfold validateCSV
    rw [if_neg hne, if_neg hlines]
    split
    · rename_i heq
      exact absurd heq hdet
    · rename_i d heq
      have hhead : ¬(parseCSVLine ((vLines content).headD []) d).length = 0 := by
        intro h0
        exact parseLineAux_ne_nil d ((vLines content).headD []) false []
          (List.length_eq_zero.mp h0)
      rw [if_neg hhead]
      by_cases hm : checkMalformedQuotes (vLines content) ≠ []
      · rw [if_pos hm]
        have hiff := checkMalformedQuotesAux_nil_iff (vLines content) 0
        have hex : ∃ l ∈ vLines content, Odd (unescQuoteCount l 0) := by
          by_contra hno
          push_neg at hno
          exact hm (hiff.mpr hno)
        simp [hex]
      · rw [if_neg hm]
        push_neg at hm
        have hall := (checkMalformedQuotesAux_nil_iff (vLines content) 0).mp hm
        simp only [List.not_mem_nil, false_iff]
        rintro ⟨l, hl, hodd⟩
        exact hall l hl hodd

/-- C7 witness: on the one-line input `x"y` (one unescaped quote, odd) the
check flags line 1 and `validateCSV` reports the error. -/
theorem c7_malformed_quote_witness :
    ([['x', '"', 'y']] : List (List Char)).get? 0 = some ['x', '"', 'y'] ∧
    ((0 + 1) ∈ checkMalformedQuotes [['x', '"', 'y']] ↔
      Odd (unescQuoteCount ['x', '"', 'y'] 0)) ∧
    trimWS "x\"y".toList ≠ [] ∧
    (VKind.malformedQuotes ∈ (validateCSV "x\"y".toList).errors ↔
      ∃ l ∈ vLines "x\"y".toList, Odd (unescQuoteCount l 0)) :=
  ⟨rfl, c7_malformed_quote_check.1 _ 0 _ rfl, by decide,
    c7_malformed_quote_check.2.2 _ (by decide)⟩

/-! ## Header synthesis in the Delimited→Record engines (C9) -/

inductive ConvErr where
  | emptyInput
  | noDelimiter
  | noData
  | noValidRows
deriving DecidableEq

/-- `removeBOM` (part_000, lines 882-887). -/
def removeBOM (l : List Char) : List Char :=
  match l with
  | '﻿' :: rest => rest
  | _ => l

/-- The extended tokenizer with coercion: part_000 `parseLine`. -/
def parseLineExt (opts : CsvOptions) (delim : Char) (line : List Char) : List JsValue :=
  (parseLineExtRaw delim line).map (processField opts)

/-- `parseCSV` (csvToJson.js, lines 131-146): split into lines, skip blank
lines, tokenize each (basic tokenizer). -/
def parseCSV (opts : CsvOptions) (delim : Char) (csv : List Char) : List (List JsValue) :=
  ((splitLines csv).filter (fun l => !(trimWS l).isEmpty)).map (parseLine opts delim)

/-- `parseCSV` of the extended revision (part_000, lines 585-600): same
line handling, extended tokenizer. -/
def parseCSVExt (opts : CsvOptions) (delim : Char) (csv : List Char) : List (List JsValue) :=
  ((splitLines csv).filter (fun l => !(trimWS l).isEmpty)).map (parseLineExt opts delim)

/-- `cell !== null && cell !== ''` negated: the cells that do not count as
content for the empty-row filter. -/
def isNullOrEmptyStr : JsValue → Bool
  | .null => true
  | .str [] => true
  | _ => false

/-- `Math.max(...rows.map(row => row.length))` (with zero for no rows,
which the engine rules out beforehand). -/
def maxRowLen (rows : List (List JsValue)) : Nat :=
  (rows.map List.length).foldr max 0

/-- The name `column(n)`. -/
def colName (n : Nat) : List Char := "column".toList ++ Nat.toDigits 10 n

/-- The input-handling pipeline of the basic engine's `convert`
(csvToJson.js, lines 26-58) up to the parsed rows: empty check, delimiter
resolution (explicit option, else detection), parse, no-data check. -/
def jsPrepRows (opts : CsvOptions) (csv : List Char) :
    Except ConvErr (List (List JsValue)) :=
  if (trimWS csv).isEmpty then .error .emptyInput
  else
    match (match opts.delimiter with
           | some d => some d
           | none => detectDelimiter csv) with
    | none => .error .noDelimiter
    | some delim =>
      let rows := parseCSV opts delim csv
      if rows.isEmpty then .error .noData else .ok rows

/-- Header resolution of the basic engine's `convert` (csvToJson.js, lines
50-58).  `toKey` models JavaScript's stringification of a header-row cell
when it is used as a property key (only the `hasHeaders = true` branch
uses it). -/
def jsConvertHeaders (toKey : JsValue → List Char) (opts : CsvOptions)
    (csv : List Char) : Except ConvErr (List (List Char)) :=
  match jsPrepRows opts csv with
  | .error e => .error e
  | .ok rows =>
    if opts.hasHeaders then
      .ok (match opts.customHeaders with
           | some hs => hs
           | none => (rows.headD []).map toKey)
    else
      .ok (match opts.customHeaders with
           | some hs => hs
           | none => (List.range (rows.headD []).length).map (fun i => colName (i + 1)))

/-- The input-handling pipeline of the extended engine's `convert`
(part_000, lines 464-509) up to the filtered rows: empty check, BOM
removal, delimiter resolution, parse, no-data check, empty-row filtering
(`skipEmptyLines`), no-valid-rows check. -/
def extPrepRows (opts : CsvOptions) (csv : List Char) :
    Except ConvErr (List (List JsValue)) :=
  if (trimWS csv).isEmpty then .error .emptyInput
  else
    let csv2 := removeBOM csv
    match (match opts.delimiter with
           | some d => some d
           | none => detectDelimiter csv2) with
    | none => .error .noDelimiter
    | some delim =>
      let rows := parseCSVExt opts delim csv2
      if rows.isEmpty then .error .noData
      else
        let filteredRows := if opts.skipEmptyLines then
            rows.filter (fun row => row.any (fun cell => !(isNullOrEmptyStr cell)))
          else rows
        if filteredRows.isEmpty then .error .noValidRows else .ok filteredRows

/-- Header resolution of the extended engine's `convert` (part_000, lines
500-509): with `hasHeaders = false` the column count is the maximum row
length across the filtered rows. -/
def extConvertHeaders (toKey : JsValue → List Char) (opts : CsvOptions)
    (csv : List Char) : Except ConvErr (List (List Char)) :=
  match extPrepRows opts csv with
  | .error e => .error e
  | .ok filteredRows =>
    if opts.hasHeaders then
      .ok (match opts.customHeaders with
           | some hs => hs
           | none => (filteredRows.headD []).map toKey)
    else
      .ok (match opts.customHeaders with
           | some hs => hs
           | none => (List.range (maxRowLen filteredRows)).map (fun i => colName (i + 1)))

/-- C9 (amended): when `hasHeaders` is false and no `customHeaders` are
supplied, the extended Delimited→Record engine synthesizes column names
`column1..columnN` with `N` the maximum row length across all rows that
survive the empty-row filtering — not merely the first row's length.  (The
basic engine of csvToJson.js instead uses the first row's length; see the
counterexample.) -/
theorem c9_synthesized_headers (toKey : JsValue → List Char) (opts : CsvOptions)
    (csv : List Char) (hH : opts.hasHeaders = false)
    (hC : opts.customHeaders = none) :
    extConvertHeaders toKey opts csv =
      (extPrepRows opts csv).map
        (fun F => (List.range (maxRowLen F)).map (fun i => colName (i + 1))) := by
  unfold extConvertHeaders
  match extPrepRows opts csv with
  | .error e => rfl
  | .ok filteredRows =>
    rw [hH]
    simp only [Bool.false_eq_true, if_false, hC]
    rfl

/-- Options for the C9 instances: explicit delimiter, no header row. -/
def c9opts : CsvOptions := { delimiter := some ',', hasHeaders := false }

/-- C9 witness: on `a,b` over `x,y,z` (no header row) the extended engine
synthesizes three columns, the maximum row length. -/
theorem c9_synthesized_headers_witness :
    c9opts.hasHeaders = false ∧ c9opts.customHeaders = none ∧
    extConvertHeaders (fun _ => []) c9opts "a,b\nx,y,z".toList =
      (extPrepRows c9opts "a,b\nx,y,z".toList).map
        (fun F => (List.range (maxRowLen F)).map (fun i => colName (i + 1))) ∧
    extConvertHeaders (fun _ => []) c9opts "a,b\nx,y,z".toList =
      .ok [colName 1, colName 2, colName 3] := by
  exact ⟨rfl, rfl, c9_synthesized_headers _ _ _ rfl rfl, rfl⟩

/-- C9 counterexample to the claim as stated of the basic engine
(csvToJson.js `convert`, also cited by the claim): with `hasHeaders` false
on the same input it synthesizes `column1..column2` from the first row's
length although the maximum row length over all parsed rows is 3. -/
theorem c9_basic_engine_counterexample :
    jsConvertHeaders (fun _ => []) c9opts "a,b\nx,y,z".toList =
      .ok [colName 1, colName 2] ∧
    (jsPrepRows c9opts "a,b\nx,y,z".toList).map maxRowLen = .ok 3 ∧
    [colName 1, colName 2] ≠ (List.range 3).map (fun i => colName (i + 1)) := by
  exact ⟨rfl, rfl, by decide⟩

/-! ## Reference identity, the heap model and cycle detection (C8) -/

/-- A JavaScript runtime value as seen by the cycle detector: a primitive,
or a reference to a heap object (objects and arrays both). -/
inductive HVal where
  | atom
  | ref (a : Nat)
deriving DecidableEq

/-- The heap: at each address, the list of property values the `for..in`
walk of `hasCircularReference` visits (keys are irrelevant to it). -/
abbrev Heap : Type := List (Nat × List HVal)

def heapLookup (h : Heap) (a : Nat) : Option (List HVal) :=
  match h with
  | [] => none
  | (b, ns) :: rest => if b = a then some ns else heapLookup rest a

def heapAddrs (h : Heap) : List Nat := h.map Prod.fst

/-- Number of heap addresses not yet in the seen set (the decreasing
measure of the traversal). -/
def unseenCount (h : Heap) (seen : List Nat) : Nat :=
  ((heapAddrs h).filter (fun a => decide (a ∉ seen))).length

lemma heapLookup_mem_addrs (h : Heap) (a : Nat) (ns : List HVal)
    (hl : heapLookup h a = some ns) : a ∈ heapAddrs h := by
  induction h with
  | nil => exact absurd hl (by simp [heapLookup])
  | cons p rest ih =>
    rw [heapLookup] at hl
    by_cases hb : p.1 = a
    · exact hb ▸ List.mem_map_of_mem Prod.fst (List.mem_cons_self _ _)
    · rw [show p = (p.1, p.2) from rfl] at hl
      rw [if_neg hb] at hl
      exact List.mem_cons_of_mem _ (ih hl)

lemma filter_notmem_cons_le (l : List Nat) (a : Nat) (seen : List Nat) :
    (l.filter (fun x => decide (x ∉ a :: seen))).length ≤
      (l.filter (fun x => decide (x ∉ seen))).length :=
  List.Sublist.length_le (List.monotone_filter_right l (by
    intro x hx
    simp only [decide_eq_true_eq, List.mem_cons, not_or] at hx ⊢
    exact hx.2))

lemma filter_notmem_cons_lt (l : List Nat) (a : Nat) (seen : List Nat)
    (hal : a ∈ l) (hna : a ∉ seen) :
    (l.filter (fun x => decide (x ∉ a :: seen))).length <
      (l.filter (fun x => decide (x ∉ seen))).length := by
  induction l with
  | nil => exact absurd hal (List.not_mem_nil a)
  | cons x xs ih =>
    by_cases hx : x = a
    · subst hx
      rw [List.filter_cons, List.filter_cons]
      rw [if_neg (by simp), if_pos (by simpa using hna)]
      have := filter_notmem_cons_le xs x seen
      simp only [List.length_cons]
      omega
    · rw [List.filter_cons, List.filter_cons]
      rcases List.mem_cons.mp hal with rfl | hmem
      · exact absurd rfl hx
      · have heq : (decide (x ∉ a :: seen)) = (decide (x ∉ seen)) := by
          by_cases hxs : x ∈ seen
          · simp [hxs]
          · simp [hxs, hx]
        rw [heq]
        by_cases hxs : decide (x ∉ seen) = true
        · rw [if_pos hxs, if_pos hxs]
          simpa using ih hmem
        · rw [if_neg hxs, if_neg hxs]
          exact ih hmem

lemma unseen_lt (h : Heap) (seen : List Nat) (a : Nat)
    (hm : a ∈ heapAddrs h) (hs : a ∉ seen) :
    unseenCount h (a :: seen) < unseenCount h seen :=
  filter_notmem_cons_lt (heapAddrs h) a seen hm hs

lemma unseen_le (h : Heap) (seen : List Nat) (a : Nat) :
    unseenCount h (a :: seen) ≤ unseenCount h seen :=
  filter_notmem_cons_le (heapAddrs h) a seen

/-- The traversal of `hasCircularReference` (jsonToCsv.js, lines 377-397)
in worklist form: the recursive source walks children left to right with
one global seen set and returns `true` at the first already-seen object;
pushing the children in front of the remaining work performs the same
preorder walk with the same threaded seen set and the same early exit. -/
def detectIter (h : Heap) : List HVal → List Nat → Bool
  | [], _ => false
  | .atom :: rest, seen => detectIter h rest seen
  | .ref a :: rest, seen =>
    if a ∈ seen then true
    else
      match hl : heapLookup h a with
      | some children => detectIter h (children ++ rest) (a :: seen)
      | none => detectIter h rest (a :: seen)
termination_by stack seen => (unseenCount h seen, stack.length)
decreasing_by
  · exact Prod.Lex.right _ (by simp)
  · exact Prod.Lex.left _ _ (unseen_lt h seen a (heapLookup_mem_addrs h a _ hl) (by assumption))
  · rcases lt_or_eq_of_le (unseen_le h seen a) with hlt | heq
    · exact Prod.Lex.left _ _ hlt
    · rw [heq]
      exact Prod.Lex.right _ (by simp)

/-- `hasCircularReference` (jsonToCsv.js, lines 377-397): detect with an
initially empty seen set. -/
def hasCircularReference (h : Heap) (v : HVal) : Bool := detectIter h [v] []

lemma sizeOf_map_snd (entries : List (List Char × JsValue)) :
    sizeOf (entries.map Prod.snd) ≤ sizeOf entries := by
  induction entries with
  | nil => simp
  | cons p rest ih =>
    rw [List.map_cons]
    simp only [List.cons.sizeOf_spec, Prod.mk.sizeOf_spec]
    have : sizeOf p.2 ≤ sizeOf p := by
      rw [show p = (p.1, p.2) from rfl]
      simp only [Prod.mk.sizeOf_spec]
      omega
    omega

/-- The fresh-allocation embedding of parsed JSON values into the heap,
modelling that `JSON.parse` creates a distinct object for every object or
array literal it reads: each object or array receives the next unused
address (preorder), scalars are atoms.  Returns the value list, the heap
chunk and the next free address. -/
def buildMany : List JsValue → Nat → List HVal × Heap × Nat
  | [], n => ([], [], n)
  | .arr elems :: rest, n =>
    (HVal.ref n :: (buildMany rest (buildMany elems (n + 1)).2.2).1,
     (n, (buildMany elems (n + 1)).1) ::
       (buildMany elems (n + 1)).2.1 ++ (buildMany rest (buildMany elems (n + 1)).2.2).2.1,
     (buildMany rest (buildMany elems (n + 1)).2.2).2.2)
  | .obj entries :: rest, n =>
    (HVal.ref n :: (buildMany rest (buildMany (entries.map Prod.snd) (n + 1)).2.2).1,
     (n, (buildMany (entries.map Prod.snd) (n + 1)).1) ::
       (buildMany (entries.map Prod.snd) (n + 1)).2.1 ++
         (buildMany rest (buildMany (entries.map Prod.snd) (n + 1)).2.2).2.1,
     (buildMany rest (buildMany (entries.map Prod.snd) (n + 1)).2.2).2.2)
  | .null :: rest, n =>
    (HVal.atom :: (buildMany rest n).1, (buildMany rest n).2.1, (buildMany rest n).2.2)
  | .bool _ :: rest, n =>
    (HVal.atom :: (buildMany rest n).1, (buildMany rest n).2.1, (buildMany rest n).2.2)
  | .num _ :: rest, n =>
    (HVal.atom :: (buildMany rest n).1, (buildMany rest n).2.1, (buildMany rest n).2.2)
  | .str _ :: rest, n =>
    (HVal.atom :: (buildMany rest n).1, (buildMany rest n).2.1, (buildMany rest n).2.2)
termination_by js _ => sizeOf js
decreasing_by
  all_goals simp_wf
  all_goals try omega
  · have := sizeOf_map_snd entries
    omega

/-- The heap representation of one parsed value. -/
def buildVal (j : JsValue) (n : Nat) : HVal × Heap × Nat :=
  ((buildMany [j] n).1.headD .atom, (buildMany [j] n).2.1, (buildMany [j] n).2.2)

lemma heapLookup_append_of_mem (xs ys : Heap) (a : Nat) (ns : List HVal)
    (h : heapLookup xs a = some ns) : heapLookup (xs ++ ys) a = some ns := by
  induction xs with
  | nil => exact absurd h (by simp [heapLookup])
  | cons p rest ih =>
    obtain ⟨b, ns2⟩ := p
    rw [List.cons_append, heapLookup]
    rw [heapLookup] at h
    by_cases hb : b = a
    · rw [if_pos hb] at h ⊢; exact h
    · rw [if_neg hb] at h ⊢; exact ih h

lemma heapLookup_append_of_notmem (xs ys : Heap) (a : Nat) (ha : a ∉ heapAddrs xs) :
    heapLookup (xs ++ ys) a = heapLookup ys a := by
  induction xs with
  | nil => rfl
  | cons p rest ih =>
    obtain ⟨b, ns2⟩ := p
    simp only [heapAddrs, List.map_cons, List.mem_cons, not_or] at ha
    rw [List.cons_append, heapLookup, if_neg (fun h => ha.1 h.symm)]
    exact ih (by simpa [heapAddrs] using ha.2)

lemma heapLookup_mem_pair (h : Heap) (a : Nat) (ns : List HVal)
    (hl : heapLookup h a = some ns) : (a, ns) ∈ h := by
  induction h with
  | nil => exact absurd hl (by simp [heapLookup])
  | cons p rest ih =>
    obtain ⟨b, ns2⟩ := p
    rw [heapLookup] at hl
    by_cases hb : b = a
    · rw [if_pos hb] at hl
      rw [Option.some.injEq] at hl
      subst hb; subst hl
      exact List.mem_cons_self _ _
    · rw [if_neg hb] at hl
      exact List.mem_cons_of_mem _ (ih hl)

lemma buildMany_le (js : List JsValue) (n : Nat) : n ≤ (buildMany js n).2.2 := by
  induction js, n using buildMany.induct <;> simp only [buildMany] <;> omega

lemma buildMany_addrs : ∀ (js : List JsValue) (n : Nat) (a : Nat),
    a ∈ heapAddrs (buildMany js n).2.1 ↔ (n ≤ a ∧ a < (buildMany js n).2.2) := by
  intro js n
  induction js, n using buildMany.induct with
  | case1 n =>
    intro a
    simp only [buildMany, heapAddrs, List.map_nil, List.not_mem_nil, false_iff]
    omega
  | case2 elems rest n ih1 ih2 =>
    intro a
    have h1 := buildMany_le elems (n + 1)
    have h2 := buildMany_le rest (buildMany elems (n + 1)).2.2
    have hA : heapAddrs ((n, (buildMany elems (n + 1)).1) ::
        (buildMany elems (n + 1)).2.1 ++ (buildMany rest (buildMany elems (n + 1)).2.2).2.1) =
        n :: (heapAddrs (buildMany elems (n + 1)).2.1 ++
          heapAddrs (buildMany rest (buildMany elems (n + 1)).2.2).2.1) := by
      simp [heapAddrs]
    simp only [buildMany, hA, List.mem_cons, List.mem_append, ih1 a, ih2 a]
    omega
  | case3 entries rest n ih1 ih2 =>
    intro a
    have h1 := buildMany_le (entries.map Prod.snd) (n + 1)
    have h2 := buildMany_le rest (buildMany (entries.map Prod.snd) (n + 1)).2.2
    have hA : heapAddrs ((n, (buildMany (entries.map Prod.snd) (n + 1)).1) ::
        (buildMany (entries.map Prod.snd) (n + 1)).2.1 ++
          (buildMany rest (buildMany (entries.map Prod.snd) (n + 1)).2.2).2.1) =
        n :: (heapAddrs (buildMany (entries.map Prod.snd) (n + 1)).2.1 ++
          heapAddrs (buildMany rest (buildMany (entries.map Prod.snd) (n + 1)).2.2).2.1) := by
      simp [heapAddrs]
    simp only [buildMany, hA, List.mem_cons, List.mem_append, ih1 a, ih2 a]
    omega
  | case4 rest n ih => intro a; simpa only [buildMany] using ih a
  | case5 b rest n ih => intro a; simpa only [buildMany] using ih a
  | case6 m rest n ih => intro a; simpa only [buildMany] using ih a
  | case7 s rest n ih => intro a; simpa only [buildMany] using ih a

lemma buildMany_vals : ∀ (js : List JsValue) (n : Nat) (v : HVal),
    v ∈ (buildMany js n).1 →
      v = HVal.atom ∨ ∃ a, v = HVal.ref a ∧ n ≤ a ∧ a < (buildMany js n).2.2 := by
  intro js n
  induction js, n using buildMany.induct with
  | case1 n => intro v hv; exact absurd hv (by simp [buildMany])
  | case2 elems rest n ih1 ih2 =>
    intro v hv
    have h1 := buildMany_le elems (n + 1)
    have h2 := buildMany_le rest (buildMany elems (n + 1)).2.2
    simp only [buildMany, List.mem_cons] at hv ⊢
    rcases hv with rfl | hv
    · exact Or.inr ⟨n, rfl, le_refl n, by omega⟩
    · rcases ih2 v hv with h | ⟨a, rfl, ha1, ha2⟩
      · exact Or.inl h
      · exact Or.inr ⟨a, rfl, by omega, ha2⟩
  | case3 entries rest n ih1 ih2 =>
    intro v hv
    have h1 := buildMany_le (entries.map Prod.snd) (n + 1)
    have h2 := buildMany_le rest (buildMany (entries.map Prod.snd) (n + 1)).2.2
    simp only [buildMany, List.mem_cons] at hv ⊢
    rcases hv with rfl | hv
    · exact Or.inr ⟨n, rfl, le_refl n, by omega⟩
    · rcases ih2 v hv with h | ⟨a, rfl, ha1, ha2⟩
      · exact Or.inl h
      · exact Or.inr ⟨a, rfl, by omega, ha2⟩
  | case4 rest n ih =>
    intro v hv
    simp only [buildMany, List.mem_cons] at hv ⊢
    rcases hv with rfl | hv
    · exact Or.inl rfl
    · exact ih v hv
  | case5 b rest n ih =>
    intro v hv
    simp only [buildMany, List.mem_cons] at hv ⊢
    rcases hv with rfl | hv
    · exact Or.inl rfl
    · exact ih v hv
  | case6 m rest n ih =>
    intro v hv
    simp only [buildMany, List.mem_cons] at hv ⊢
    rcases hv with rfl | hv
    · exact Or.inl rfl
    · exact ih v hv
  | case7 s rest n ih =>
    intro v hv
    simp only [buildMany, List.mem_cons] at hv ⊢
    rcases hv with rfl | hv
    · exact Or.inl rfl
    · exact ih v hv

lemma buildMany_edges : ∀ (js : List JsValue) (n : Nat) (p : Nat × List HVal),
    p ∈ (buildMany js n).2.1 → ∀ b, HVal.ref b ∈ p.2 →
      p.1 < b ∧ b < (buildMany js n).2.2 := by
  intro js n
  induction js, n using buildMany.induct with
  | case1 n => intro p hp; exact absurd hp (by simp [buildMany])
  | case2 elems rest n ih1 ih2 =>
    intro p hp b hb
    have h1 := buildMany_le elems (n + 1)
    have h2 := buildMany_le rest (buildMany elems (n + 1)).2.2
    simp only [buildMany, List.mem_cons, List.mem_append] at hp ⊢
    rcases hp with (rfl | hp) | hp
    · rcases buildMany_vals elems (n + 1) (HVal.ref b) hb with h | ⟨a, ha, ha1, ha2⟩
      · exact absurd h (by simp)
      · rw [HVal.ref.injEq] at ha
        dsimp only
        omega
    · have := ih1 p hp b hb
      omega
    · have := ih2 p hp b hb
      omega
  | case3 entries rest n ih1 ih2 =>
    intro p hp b hb
    have h1 := buildMany_le (entries.map Prod.snd) (n + 1)
    have h2 := buildMany_le rest (buildMany (entries.map Prod.snd) (n + 1)).2.2
    simp only [buildMany, List.mem_cons, List.mem_append] at hp ⊢
    rcases hp with (rfl | hp) | hp
    · rcases buildMany_vals (entries.map Prod.snd) (n + 1) (HVal.ref b) hb with h | ⟨a, ha, ha1, ha2⟩
      · exact absurd h (by simp)
      · rw [HVal.ref.injEq] at ha
        dsimp only
        omega
    · have := ih1 p hp b hb
      omega
    · have := ih2 p hp b hb
      omega
  | case4 rest n ih =>
    intro p hp b hb
    simp only [buildMany] at hp ⊢
    exact ih p hp b hb
  | case5 b0 rest n ih =>
    intro p hp b hb
    simp only [buildMany] at hp ⊢
    exact ih p hp b hb
  | case6 m rest n ih =>
    intro p hp b hb
    simp only [buildMany] at hp ⊢
    exact ih p hp b hb
  | case7 s rest n ih =>
    intro p hp b hb
    simp only [buildMany] at hp ⊢
    exact ih p hp b hb

lemma detectIter_nil (G : Heap) (seen : List Nat) : detectIter G [] seen = false := by
  rw [detectIter.eq_def]

lemma detectIter_atom (G : Heap) (stack : List HVal) (seen : List Nat) :
    detectIter G (HVal.atom :: stack) seen = detectIter G stack seen := by
  rw [detectIter.eq_def]

lemma detectIter_ref_some (G : Heap) (a : Nat) (stack : List HVal) (seen : List Nat)
    (ha : a ∉ seen) (ns : List HVal) (hl : heapLookup G a = some ns) :
    detectIter G (HVal.ref a :: stack) seen = detectIter G (ns ++ stack) (a :: seen) := by
  rw [detectIter.eq_def]
  dsimp only
  rw [if_neg ha]
  split
  · rename_i children heq
    rw [hl] at heq
    rw [Option.some.injEq] at heq
    rw [heq]
  · rename_i heq
    rw [hl] at heq
    exact absurd heq (by simp)

lemma buildMany_detect (G : Heap) :
    ∀ (js : List JsValue) (n : Nat),
    (∀ a ns, n ≤ a → a < (buildMany js n).2.2 →
        heapLookup (buildMany js n).2.1 a = some ns → heapLookup G a = some ns) →
    ∀ (rest : List HVal) (seen : List Nat),
    (∀ a ∈ seen, ¬(n ≤ a ∧ a < (buildMany js n).2.2)) →
    ∃ seen', detectIter G ((buildMany js n).1 ++ rest) seen = detectIter G rest seen' ∧
      ∀ a, a ∈ seen' ↔ ((n ≤ a ∧ a < (buildMany js n).2.2) ∨ a ∈ seen) := by
  intro js n
  induction js, n using buildMany.induct with
  | case1 n =>
    intro _ rest seen _
    refine ⟨seen, by simp only [buildMany, List.nil_append], fun a => ?_⟩
    simp only [buildMany]
    have : ¬(n ≤ a ∧ a < n) := by omega
    tauto
  | case2 elems rest0 n ih1 ih2 =>
    intro Hlook rest seen Hseen
    have h1 := buildMany_le elems (n + 1)
    have h2 := buildMany_le rest0 (buildMany elems (n + 1)).2.2
    simp only [buildMany] at Hlook Hseen ⊢
    have hn_nin : n ∉ seen := fun h => Hseen n h ⟨le_refl n, by omega⟩
    have hlookn : heapLookup G n = some (buildMany elems (n + 1)).1 := by
      apply Hlook n _ (le_refl n) (by omega)
      rw [List.cons_append, heapLookup, if_pos rfl]
    have Hlook1 : ∀ a ns, n + 1 ≤ a → a < (buildMany elems (n + 1)).2.2 →
        heapLookup (buildMany elems (n + 1)).2.1 a = some ns → heapLookup G a = some ns := by
      intro a ns ha1 ha2 hl
      apply Hlook a ns (by omega) (by omega)
      rw [List.cons_append, heapLookup, if_neg (by omega : ¬ n = a)]
      exact heapLookup_append_of_mem _ _ _ _ hl
    have Hseen1 : ∀ a ∈ n :: seen, ¬(n + 1 ≤ a ∧ a < (buildMany elems (n + 1)).2.2) := by
      intro a ha
      rcases List.mem_cons.mp ha with rfl | ha
      · omega
      · have := Hseen a ha; omega
    obtain ⟨seen1, hs1, hc1⟩ := ih1 Hlook1
      ((buildMany rest0 (buildMany elems (n + 1)).2.2).1 ++ rest) (n :: seen) Hseen1
    have Hlook2 : ∀ a ns, (buildMany elems (n + 1)).2.2 ≤ a →
        a < (buildMany rest0 (buildMany elems (n + 1)).2.2).2.2 →
        heapLookup (buildMany rest0 (buildMany elems (n + 1)).2.2).2.1 a = some ns →
        heapLookup G a = some ns := by
      intro a ns ha1 ha2 hl
      apply Hlook a ns (by omega) ha2
      rw [List.cons_append, heapLookup, if_neg (by omega : ¬ n = a),
        heapLookup_append_of_notmem]
      · exact hl
      · intro hmem
        have := (buildMany_addrs elems (n + 1) a).mp hmem
        omega
    have Hseen2 : ∀ a ∈ seen1,
        ¬((buildMany elems (n + 1)).2.2 ≤ a ∧
          a < (buildMany rest0 (buildMany elems (n + 1)).2.2).2.2) := by
      intro a ha
      rcases (hc1 a).mp ha with h | h
      · omega
      · rcases List.mem_cons.mp h with rfl | h
        · omega
        · have := Hseen a h; omega
    obtain ⟨seen2, hs2, hc2⟩ := ih2 Hlook2 rest seen1 Hseen2
    refine ⟨seen2, ?_, ?_⟩
    · rw [List.cons_append, detectIter_ref_some G n _ seen hn_nin _ hlookn, hs1, hs2]
    · intro a
      rw [hc2 a, hc1 a, List.mem_cons]
      have : ((buildMany elems (n + 1)).2.2 ≤ a ∧
            a < (buildMany rest0 (buildMany elems (n + 1)).2.2).2.2) ∨
          (n + 1 ≤ a ∧ a < (buildMany elems (n + 1)).2.2) ∨ a = n ↔
          (n ≤ a ∧ a < (buildMany rest0 (buildMany elems (n + 1)).2.2).2.2) := by omega
      tauto
  | case3 entries rest0 n ih1 ih2 =>
    intro Hlook rest seen Hseen
    have h1 := buildMany_le (entries.map Prod.snd) (n + 1)
    have h2 := buildMany_le rest0 (buildMany (entries.map Prod.snd) (n + 1)).2.2
    simp only [buildMany] at Hlook Hseen ⊢
    have hn_nin : n ∉ seen := fun h => Hseen n h ⟨le_refl n, by omega⟩
    have hlookn : heapLookup G n = some (buildMany (entries.map Prod.snd) (n + 1)).1 := by
      apply Hlook n _ (le_refl n) (by omega)
      rw [List.cons_append, heapLookup, if_pos rfl]
    have Hlook1 : ∀ a ns, n + 1 ≤ a → a < (buildMany (entries.map Prod.snd) (n + 1)).2.2 →
        heapLookup (buildMany (entries.map Prod.snd) (n + 1)).2.1 a = some ns →
        heapLookup G a = some ns := by
      intro a ns ha1 ha2 hl
      apply Hlook a ns (by omega) (by omega)
      rw [List.cons_append, heapLookup, if_neg (by omega : ¬ n = a)]
      exact heapLookup_append_of_mem _ _ _ _ hl
    have Hseen1 : ∀ a ∈ n :: seen,
        ¬(n + 1 ≤ a ∧ a < (buildMany (entries.map Prod.snd) (n + 1)).2.2) := by
      intro a ha
      rcases List.mem_cons.mp ha with rfl | ha
      · omega
      · have := Hseen a ha; omega
    obtain ⟨seen1, hs1, hc1⟩ := ih1 Hlook1
      ((buildMany rest0 (buildMany (entries.map Prod.snd) (n + 1)).2.2).1 ++ rest)
      (n :: seen) Hseen1
    have Hlook2 : ∀ a ns, (buildMany (entries.map Prod.snd) (n + 1)).2.2 ≤ a →
        a < (buildMany rest0 (buildMany (entries.map Prod.snd) (n + 1)).2.2).2.2 →
        heapLookup (buildMany rest0 (buildMany (entries.map Prod.snd) (n + 1)).2.2).2.1 a =
          some ns →
        heapLookup G a = some ns := by
      intro a ns ha1 ha2 hl
      apply Hlook a ns (by omega) ha2
      rw [List.cons_append, heapLookup, if_neg (by omega : ¬ n = a),
        heapLookup_append_of_notmem]
      · exact hl
      · intro hmem
        have := (buildMany_addrs (entries.map Prod.snd) (n + 1) a).mp hmem
        omega
    have Hseen2 : ∀ a ∈ seen1,
        ¬((buildMany (entries.map Prod.snd) (n + 1)).2.2 ≤ a ∧
          a < (buildMany rest0 (buildMany (entries.map Prod.snd) (n + 1)).2.2).2.2) := by
      intro a ha
      rcases (hc1 a).mp ha with h | h
      · omega
      · rcases List.mem_cons.mp h with rfl | h
        · omega
        · have := Hseen a h; omega
    obtain ⟨seen2, hs2, hc2⟩ := ih2 Hlook2 rest seen1 Hseen2
    refine ⟨seen2, ?_, ?_⟩
    · rw [List.cons_append, detectIter_ref_some G n _ seen hn_nin _ hlookn, hs1, hs2]
    · intro a
      rw [hc2 a, hc1 a, List.mem_cons]
      have : ((buildMany (entries.map Prod.snd) (n + 1)).2.2 ≤ a ∧
            a < (buildMany rest0 (buildMany (entries.map Prod.snd) (n + 1)).2.2).2.2) ∨
          (n + 1 ≤ a ∧ a < (buildMany (entries.map Prod.snd) (n + 1)).2.2) ∨ a = n ↔
          (n ≤ a ∧ a < (buildMany rest0
            (buildMany (entries.map Prod.snd) (n + 1)).2.2).2.2) := by omega
      tauto
  | case4 rest0 n ih =>
    intro Hlook rest seen Hseen
    simp only [buildMany] at Hlook Hseen ⊢
    obtain ⟨seen', hs, hc⟩ := ih Hlook rest seen Hseen
    exact ⟨seen', by rw [List.cons_append, detectIter_atom, hs], hc⟩
  | case5 b0 rest0 n ih =>
    intro Hlook rest seen Hseen
    simp only [buildMany] at Hlook Hseen ⊢
    obtain ⟨seen', hs, hc⟩ := ih Hlook rest seen Hseen
    exact ⟨seen', by rw [List.cons_append, detectIter_atom, hs], hc⟩
  | case6 m rest0 n ih =>
    intro Hlook rest seen Hseen
    simp only [buildMany] at Hlook Hseen ⊢
    obtain ⟨seen', hs, hc⟩ := ih Hlook rest seen Hseen
    exact ⟨seen', by rw [List.cons_append, detectIter_atom, hs], hc⟩
  | case7 s rest0 n ih =>
    intro Hlook rest seen Hseen
    simp only [buildMany] at Hlook Hseen ⊢
    obtain ⟨seen', hs, hc⟩ := ih Hlook rest seen Hseen
    exact ⟨seen', by rw [List.cons_append, detectIter_atom, hs], hc⟩

/-- One step of the object graph: the object at address b is among the
enumerable property values of the object at address a. -/
def heapEdge (h : Heap) (a b : Nat) : Prop :=
  ∃ ns, heapLookup h a = some ns ∧ HVal.ref b ∈ ns

/-- Address a lies in the object graph of the runtime value v. -/
def reachableFrom (h : Heap) (v : HVal) (a : Nat) : Prop :=
  ∃ r, v = HVal.ref r ∧ Relation.ReflTransGen (heapEdge h) r a

/-- The spec-side reading of a reference cycle: some object of v's graph
reaches itself by a nonempty chain of property references. -/
def valHasCycle (h : Heap) (v : HVal) : Prop :=
  ∃ a, reachableFrom h v a ∧ Relation.TransGen (heapEdge h) a a

lemma buildMany_edge_lt (js : List JsValue) (n : Nat) (a b : Nat)
    (h : heapEdge (buildMany js n).2.1 a b) : a < b := by
  obtain ⟨ns, hl, hb⟩ := h
  have hp := heapLookup_mem_pair _ _ _ hl
  exact (buildMany_edges js n (a, ns) hp b hb).1

lemma buildMany_no_cycle (js : List JsValue) (n : Nat) (v : HVal) :
    ¬ valHasCycle (buildMany js n).2.1 v := by
  rintro ⟨a, _, hcyc⟩
  have hmono : ∀ x y, Relation.TransGen (heapEdge (buildMany js n).2.1) x y → x < y := by
    intro x y hxy
    induction hxy with
    | single h => exact buildMany_edge_lt _ _ _ _ h
    | tail _ h ih => exact lt_trans ih (buildMany_edge_lt _ _ _ _ h)
  exact lt_irrefl a (hmono a a hcyc)

lemma buildMany_single_val (j : JsValue) (n : Nat) :
    (buildMany [j] n).1 = [(buildMany [j] n).1.headD HVal.atom] := by
  cases j <;> simp [buildMany]

lemma buildVal_detect_false (j : JsValue) (n : Nat) :
    hasCircularReference (buildVal j n).2.1 (buildVal j n).1 = false := by
  obtain ⟨seen', hs, _⟩ := buildMany_detect (buildMany [j] n).2.1 [j] n
    (fun a ns _ _ h => h) [] []
    (fun a ha => absurd ha (List.not_mem_nil a))
  rw [List.append_nil] at hs
  show detectIter (buildMany [j] n).2.1 [(buildMany [j] n).1.headD HVal.atom] [] = false
  rw [← buildMany_single_val, hs, detectIter_nil]

/-- C8: the Record→Delimited engine (`convert`, jsonToCsv.js lines 37-40)
runs `hasCircularReference` on the output of `JSON.parse`, which allocates
a fresh, distinct object for every object or array literal it reads
(modelled by `buildVal`, fresh preorder addresses): on every such input the
check returns `false` and the object graph has no reference cycle, so the
CircularReference failure fires exactly when the input's object graph has a
cycle — never; in particular structurally equal but independently allocated
duplicate substructures are never rejected as circular. -/
theorem c8_circular_reference_iff_cycle (j : JsValue) (n : Nat) :
    hasCircularReference (buildVal j n).2.1 (buildVal j n).1 = false ∧
    (hasCircularReference (buildVal j n).2.1 (buildVal j n).1 = true ↔
      valHasCycle (buildVal j n).2.1 (buildVal j n).1) := by
  have hf := buildVal_detect_false j n
  refine ⟨hf, ?_⟩
  rw [hf]
  constructor
  · intro h
    exact absurd h (by simp)
  · intro h
    exact absurd h (buildMany_no_cycle [j] n _)

/-! ## Nested records: flattening and unflattening (C5) -/

/-- Insertion into the JS `Set` that extractFlattenedKeys/extractKeysRecursive
collect keys into: first-insertion order is kept, repeats are dropped. -/
def addKey (acc : List (List Char)) (k : List Char) : List (List Char) :=
  if k ∈ acc then acc else acc ++ [k]

/-- extractKeysRecursive (jsonToCsv.js lines 311-327), with the depth check
that the source performs on entry of each recursive call inlined at the one
recursion site (the top-level entry's check is in extractKeysTop): a value
recursed into iff it is a non-null non-array object; anything else adds the
joined key to the set. -/
def extractKeysAux (sep : Char) (D : Nat) :
    List (List Char × JsValue) → List Char → Nat → List (List Char) → List (List Char)
  | [], _, _, acc => acc
  | (k, .obj entries2) :: rest, pre, depth, acc =>
    extractKeysAux sep D rest pre depth
      (if D ≤ depth + 1 then addKey acc (if pre = [] then k else pre ++ sep :: k)
       else extractKeysAux sep D entries2 (if pre = [] then k else pre ++ sep :: k)
         (depth + 1) acc)
  | (k, .null) :: rest, pre, depth, acc =>
    extractKeysAux sep D rest pre depth (addKey acc (if pre = [] then k else pre ++ sep :: k))
  | (k, .bool _) :: rest, pre, depth, acc =>
    extractKeysAux sep D rest pre depth (addKey acc (if pre = [] then k else pre ++ sep :: k))
  | (k, .num _) :: rest, pre, depth, acc =>
    extractKeysAux sep D rest pre depth (addKey acc (if pre = [] then k else pre ++ sep :: k))
  | (k, .str _) :: rest, pre, depth, acc =>
    extractKeysAux sep D rest pre depth (addKey acc (if pre = [] then k else pre ++ sep :: k))
  | (k, .arr _) :: rest, pre, depth, acc =>
    extractKeysAux sep D rest pre depth (addKey acc (if pre = [] then k else pre ++ sep :: k))
termination_by entries _ _ _ => sizeOf entries
decreasing_by all_goals simp_wf <;> omega

/-- The flattened key set of one record: extractKeysRecursive(obj, '', set, 0);
the `D = 0` guard is the source's entry check for the top-level call. -/
def extractKeysTop (sep : Char) (D : Nat) (entries : List (List Char × JsValue)) :
    List (List Char) :=
  if D ≤ 0 then [[]] else extractKeysAux sep D entries [] 0 []

/-- JS own-property read on a plain object (a JS object cannot hold the same
key twice, so entry lists reached here are duplicate-free). -/
def objGet : List (List Char × JsValue) → List Char → Option JsValue
  | [], _ => none
  | (k, v) :: rest, key => if k = key then some v else objGet rest key

/-- JS property assignment on a plain object: overwrite in place when the key
exists (position preserved), else append. -/
def objSet (entries : List (List Char × JsValue)) (key : List Char) (v : JsValue) :
    List (List Char × JsValue) :=
  if entries.any (fun e => decide (e.1 = key)) then
    entries.map (fun e => if e.1 = key then (key, v) else e)
  else entries ++ [(key, v)]

/-- The own properties of a JS array that the `in` operator and indexing see:
canonical decimal indices and `length`; prototype-inherited members (never
reached by the engine's generated key paths) are not modelled. -/
def arrGet (elems : List JsValue) (key : List Char) : Option JsValue :=
  if key = ['l','e','n','g','t','h'] then
    some (JsValue.num (JsNum.finite (elems.length : ℚ)))
  else
    match (List.range elems.length).filter (fun i => decide (Nat.toDigits 10 i = key)) with
    | i :: _ => elems.get? i
    | [] => none

/-- The index of the canonical-decimal array slot named by `key`, if any. -/
def arrIdx (elems : List JsValue) (key : List Char) : Option Nat :=
  match (List.range elems.length).filter (fun i => decide (Nat.toDigits 10 i = key)) with
  | i :: _ => some i
  | [] => none

/-- getNestedValue's loop (jsonToCsv.js lines 335-348): descend while
`value && typeof value === 'object' && key in value`, i.e. through plain
objects and arrays holding the key; otherwise the walk returns undefined
(`none`). -/
def walkKeys : JsValue → List (List Char) → Option JsValue
  | v, [] => some v
  | .obj entries, key :: rest =>
    match objGet entries key with
    | some v2 => walkKeys v2 rest
    | none => none
  | .arr elems, key :: rest =>
    match arrGet elems key with
    | some v2 => walkKeys v2 rest
    | none => none
  | _, _ :: _ => none

/-- getNestedValue (jsonToCsv.js lines 335-348): split the path on the
configured separator and walk. -/
def getNestedValue (sep : Char) (v : JsValue) (path : List Char) : Option JsValue :=
  walkKeys v (splitOnChar sep path)

mutual
/-- setNestedValue's walk over the split path (part_000 lines 328-341):
before each of the first `keys.length - 1` keys, a slot that is missing,
null, or a primitive (`!current[key] || typeof current[key] !== 'object'`) is
replaced by a fresh empty object; an existing plain object or array is
descended into; the final key is assigned. Writes that land on an array use
its canonical index slots; a string-keyed expando property on an array is
invisible to the record structure and is modelled as leaving the array
unchanged. -/
def setKeys : List (List Char × JsValue) → List (List Char) → JsValue →
    List (List Char × JsValue)
  | entries, [], _ => entries
  | entries, [k], v => objSet entries k v
  | entries, k :: k2 :: rest, v =>
    match objGet entries k with
    | some (.obj entries2) => objSet entries k (.obj (setKeys entries2 (k2 :: rest) v))
    | some (.arr elems) => objSet entries k (.arr (arrSetKeys elems (k2 :: rest) v))
    | _ => objSet entries k (.obj (setKeys [] (k2 :: rest) v))
termination_by _ path _ => path.length

/-- The array half of setNestedValue's walk (see setKeys). -/
def arrSetKeys : List JsValue → List (List Char) → JsValue → List JsValue
  | elems, [], _ => elems
  | elems, [k], v =>
    match arrIdx elems k with
    | some i => elems.set i v
    | none => elems
  | elems, k :: k2 :: rest, v =>
    match arrIdx elems k with
    | some i =>
      match elems.get? i with
      | some (.obj entries2) => elems.set i (.obj (setKeys entries2 (k2 :: rest) v))
      | some (.arr elems2) => elems.set i (.arr (arrSetKeys elems2 (k2 :: rest) v))
      | _ => elems.set i (.obj (setKeys [] (k2 :: rest) v))
    | none => elems
termination_by _ path _ => path.length
end

/-- setNestedValue (part_000 lines 328-341): note the path is split on the
literal dot in the source, not on the configured separator. -/
def setNestedValue (entries : List (List Char × JsValue)) (path : List Char)
    (v : JsValue) : List (List Char × JsValue) :=
  setKeys entries (splitOnChar '.' path) v

/-- Unflattening: fold the flattened path/value pairs into a fresh object
with setNestedValue. -/
def unflattenPairs (pairs : List (List Char × JsValue)) : List (List Char × JsValue) :=
  pairs.foldl (fun acc p => setNestedValue acc p.1 p.2) []

/-- The flattened form of one record: its extracted separator-joined key
paths paired with their getNestedValue lookups (never undefined on extracted
keys; undefined would default to null in the pair list). -/
def flattenRecord (sep : Char) (D : Nat) (entries : List (List Char × JsValue)) :
    List (List Char × JsValue) :=
  (extractKeysTop sep D entries).map
    (fun k => (k, (getNestedValue sep (JsValue.obj entries) k).getD JsValue.null))

/-- The claim's round trip: flatten one record, then unflatten the pairs. -/
def flattenUnflatten (sep : Char) (D : Nat) (entries : List (List Char × JsValue)) :
    List (List Char × JsValue) :=
  unflattenPairs (flattenRecord sep D entries)

mutual
/-- Data-model side conditions for the round trip, on a value: a nested
object must be nonempty (extractKeysRecursive emits no key at all for an
empty object) and recursively well-formed. -/
def wfVal (sep : Char) : JsValue → Bool
  | .obj entries => !entries.isEmpty && wfEntries sep entries
  | _ => true
termination_by v => sizeOf v

/-- Data-model side conditions on an entry list: keys nonempty, free of the
separator, unique at each level, values well-formed. -/
def wfEntries (sep : Char) : List (List Char × JsValue) → Bool
  | [] => true
  | (k, v) :: rest =>
    decide (k ≠ []) && decide (sep ∉ k) && decide (∀ e ∈ rest, e.1 ≠ k) &&
      wfVal sep v && wfEntries sep rest
termination_by entries => sizeOf entries
end

mutual
/-- Object-nesting depth of a value: 0 on leaves, one more than the deepest
object value on objects (what extractKeysRecursive's depth counter visits). -/
def objDepth : JsValue → Nat
  | .obj entries => 1 + objDepthE entries
  | _ => 0
termination_by v => sizeOf v

/-- Greatest objDepth among an entry list's values. -/
def objDepthE : List (List Char × JsValue) → Nat
  | [] => 0
  | (_, v) :: rest => max (objDepth v) (objDepthE rest)
termination_by entries => sizeOf entries
end

/-- Spec-side: the key paths to the leaves of a record with the leaf values,
in extraction order. -/
def leafPairsE : List (List Char × JsValue) → List (List (List Char) × JsValue)
  | [] => []
  | (k, .obj entries2) :: rest =>
    (leafPairsE entries2).map (fun q => (k :: q.1, q.2)) ++ leafPairsE rest
  | (k, .null) :: rest => ([k], JsValue.null) :: leafPairsE rest
  | (k, .bool b) :: rest => ([k], JsValue.bool b) :: leafPairsE rest
  | (k, .num m) :: rest => ([k], JsValue.num m) :: leafPairsE rest
  | (k, .str s) :: rest => ([k], JsValue.str s) :: leafPairsE rest
  | (k, .arr elems) :: rest => ([k], JsValue.arr elems) :: leafPairsE rest
termination_by entries => sizeOf entries
decreasing_by all_goals simp_wf <;> omega

/-- Spec-side: join path parts with the separator. -/
def joinSep (sep : Char) : List (List Char) → List Char
  | [] => []
  | [p] => p
  | p :: q :: rest => p ++ sep :: joinSep sep (q :: rest)

/-- Spec-side: extractKeysRecursive's running prefix joined with a path. -/
def joinPre (sep : Char) (pre : List Char) (p : List (List Char)) : List Char :=
  if pre = [] then joinSep sep p else pre ++ sep :: joinSep sep p

lemma splitOnChar_no_sep (sep : Char) (p : List Char) (h : sep ∉ p) :
    splitOnChar sep p = [p] := by
  induction p with
  | nil => rfl
  | cons c rest ih =>
    simp only [List.mem_cons, not_or] at h
    rw [splitOnChar, ih h.2]
    dsimp only
    rw [if_neg (fun hc => h.1 hc.symm)]

lemma splitOnChar_append (sep : Char) (x y : List Char) :
    splitOnChar sep (x ++ sep :: y) = splitOnChar sep x ++ splitOnChar sep y := by
  induction x with
  | nil =>
    rw [List.nil_append]
    match hrec : splitOnChar sep y with
    | [] => exact absurd hrec (splitOnChar_ne_nil sep y)
    | p :: ps => simp [splitOnChar, hrec]
  | cons c rest ih =>
    rw [List.cons_append]
    match hrec : splitOnChar sep rest with
    | [] => exact absurd hrec (splitOnChar_ne_nil sep rest)
    | p :: ps =>
      by_cases hc : c = sep
      · simp only [splitOnChar, ih, hrec, if_pos hc]
        rfl
      · simp only [splitOnChar, ih, hrec, if_neg hc]
        rfl

lemma splitOnChar_joinSep (sep : Char) :
    ∀ (ps : List (List Char)), (∀ p ∈ ps, sep ∉ p) → ps ≠ [] →
      splitOnChar sep (joinSep sep ps) = ps
  | [], _, hne => absurd rfl hne
  | [p], h, _ => by
    rw [joinSep, splitOnChar_no_sep sep p (h p (by simp))]
  | p :: q :: rest, h, _ => by
    rw [joinSep, splitOnChar_append,
      splitOnChar_no_sep sep p (h p (by simp)),
      splitOnChar_joinSep sep (q :: rest) (fun x hx => h x (List.mem_cons_of_mem _ hx))
        (by simp)]
    rfl

lemma joinPre_single (sep : Char) (pre k : List Char) :
    joinPre sep pre [k] = if pre = [] then k else pre ++ sep :: k := by
  by_cases h : pre = [] <;> simp [joinPre, joinSep, h]

lemma joinSep_cons (sep : Char) (k : List Char) (p : List (List Char)) (hp : p ≠ []) :
    joinSep sep (k :: p) = k ++ sep :: joinSep sep p := by
  match p with
  | [] => exact absurd rfl hp
  | q :: rest => rw [joinSep]

lemma joinPre_step (sep : Char) (pre k : List Char) (p : List (List Char))
    (hk : k ≠ []) (hp : p ≠ []) :
    joinPre sep pre (k :: p) = joinPre sep (if pre = [] then k else pre ++ sep :: k) p := by
  by_cases hpre : pre = []
  · rw [joinPre, if_pos hpre, joinSep_cons sep k p hp, joinPre, if_pos hpre, if_neg hk]
  · rw [joinPre, if_neg hpre, joinSep_cons sep k p hp, joinPre, if_neg hpre,
      if_neg (by simp [hpre])]
    simp

lemma splitOnChar_joinPre (sep : Char) (pre : List Char) (p : List (List Char))
    (hp : ∀ x ∈ p, sep ∉ x) (hpne : p ≠ []) :
    splitOnChar sep (joinPre sep pre p) =
      (if pre = [] then [] else splitOnChar sep pre) ++ p := by
  by_cases hpre : pre = []
  · rw [joinPre, if_pos hpre, if_pos hpre, splitOnChar_joinSep sep p hp hpne,
      List.nil_append]
  · rw [joinPre, if_neg hpre, if_neg hpre, splitOnChar_append,
      splitOnChar_joinSep sep p hp hpne]

lemma joinPre_inj (sep : Char) (pre : List Char) (p q : List (List Char))
    (hp : ∀ x ∈ p, sep ∉ x) (hq : ∀ x ∈ q, sep ∉ x) (hpne : p ≠ []) (hqne : q ≠ [])
    (h : joinPre sep pre p = joinPre sep pre q) : p = q := by
  have := congrArg (splitOnChar sep) h
  rw [splitOnChar_joinPre sep pre p hp hpne, splitOnChar_joinPre sep pre q hq hqne] at this
  exact List.append_cancel_left this

lemma leafPairsE_head : ∀ (entries : List (List Char × JsValue)),
    ∀ q ∈ leafPairsE entries, ∃ k' p', q.1 = k' :: p' ∧ ∃ v', (k', v') ∈ entries := by
  intro entries
  induction entries using leafPairsE.induct with
  | case1 => intro q hq; exact absurd hq (by simp [leafPairsE])
  | case2 k entries2 rest ih1 ih2 =>
    intro q hq
    rw [leafPairsE] at hq
    rcases List.mem_append.mp hq with hq | hq
    · obtain ⟨q2, hq2, rfl⟩ := List.mem_map.mp hq
      exact ⟨k, q2.1, rfl, JsValue.obj entries2, List.mem_cons_self _ _⟩
    · obtain ⟨k', p', hp, v', hv⟩ := ih2 q hq
      exact ⟨k', p', hp, v', List.mem_cons_of_mem _ hv⟩
  | case3 k rest ih =>
    intro q hq
    rw [leafPairsE] at hq
    rcases List.mem_cons.mp hq with rfl | hq
    · exact ⟨k, [], rfl, JsValue.null, List.mem_cons_self _ _⟩
    · obtain ⟨k', p', hp, v', hv⟩ := ih q hq
      exact ⟨k', p', hp, v', List.mem_cons_of_mem _ hv⟩
  | case4 k b rest ih =>
    intro q hq
    rw [leafPairsE] at hq
    rcases List.mem_cons.mp hq with rfl | hq
    · exact ⟨k, [], rfl, JsValue.bool b, List.mem_cons_self _ _⟩
    · obtain ⟨k', p', hp, v', hv⟩ := ih q hq
      exact ⟨k', p', hp, v', List.mem_cons_of_mem _ hv⟩
  | case5 k m rest ih =>
    intro q hq
    rw [leafPairsE] at hq
    rcases List.mem_cons.mp hq with rfl | hq
    · exact ⟨k, [], rfl, JsValue.num m, List.mem_cons_self _ _⟩
    · obtain ⟨k', p', hp, v', hv⟩ := ih q hq
      exact ⟨k', p', hp, v', List.mem_cons_of_mem _ hv⟩
  | case6 k s rest ih =>
    intro q hq
    rw [leafPairsE] at hq
    rcases List.mem_cons.mp hq with rfl | hq
    · exact ⟨k, [], rfl, JsValue.str s, List.mem_cons_self _ _⟩
    · obtain ⟨k', p', hp, v', hv⟩ := ih q hq
      exact ⟨k', p', hp, v', List.mem_cons_of_mem _ hv⟩
  | case7 k elems rest ih =>
    intro q hq
    rw [leafPairsE] at hq
    rcases List.mem_cons.mp hq with rfl | hq
    · exact ⟨k, [], rfl, JsValue.arr elems, List.mem_cons_self _ _⟩
    · obtain ⟨k', p', hp, v', hv⟩ := ih q hq
      exact ⟨k', p', hp, v', List.mem_cons_of_mem _ hv⟩

lemma wfEntries_cons (sep : Char) (k : List Char) (v : JsValue)
    (rest : List (List Char × JsValue)) :
    wfEntries sep ((k, v) :: rest) = true ↔
      (k ≠ [] ∧ sep ∉ k ∧ (∀ e ∈ rest, e.1 ≠ k) ∧ wfVal sep v = true ∧
        wfEntries sep rest = true) := by
  rw [wfEntries]
  simp only [Bool.and_eq_true, decide_eq_true_eq, ne_eq]
  tauto

lemma wfVal_obj (sep : Char) (entries : List (List Char × JsValue)) :
    wfVal sep (JsValue.obj entries) = true ↔
      entries ≠ [] ∧ wfEntries sep entries = true := by
  rw [wfVal]
  cases entries <;> simp

lemma leafPairsE_path_wf (sep : Char) : ∀ (entries : List (List Char × JsValue)),
    wfEntries sep entries = true →
    ∀ q ∈ leafPairsE entries, q.1 ≠ [] ∧ ∀ part ∈ q.1, part ≠ [] ∧ sep ∉ part := by
  intro entries
  induction entries using leafPairsE.induct with
  | case1 => intro _ q hq; exact absurd hq (by simp [leafPairsE])
  | case2 k entries2 rest ih1 ih2 =>
    intro hwf q hq
    obtain ⟨hk, hsep, _, hv, hrest⟩ := (wfEntries_cons sep k _ rest).mp hwf
    obtain ⟨_, hwf2⟩ := (wfVal_obj sep entries2).mp hv
    rw [leafPairsE] at hq
    rcases List.mem_append.mp hq with hq | hq
    · obtain ⟨q2, hq2, rfl⟩ := List.mem_map.mp hq
      obtain ⟨_, hparts⟩ := ih1 hwf2 q2 hq2
      refine ⟨by simp, ?_⟩
      intro part hpart
      rcases List.mem_cons.mp hpart with rfl | hpart
      · exact ⟨hk, hsep⟩
      · exact hparts part hpart
    · exact ih2 hrest q hq
  | case3 k rest ih =>
    intro hwf q hq
    obtain ⟨hk, hsep, _, _, hrest⟩ := (wfEntries_cons sep k _ rest).mp hwf
    rw [leafPairsE] at hq
    rcases List.mem_cons.mp hq with rfl | hq
    · exact ⟨by simp, fun part hpart => by
        rcases List.mem_cons.mp hpart with rfl | h
        · exact ⟨hk, hsep⟩
        · exact absurd h (List.not_mem_nil part)⟩
    · exact ih hrest q hq
  | case4 k b rest ih =>
    intro hwf q hq
    obtain ⟨hk, hsep, _, _, hrest⟩ := (wfEntries_cons sep k _ rest).mp hwf
    rw [leafPairsE] at hq
    rcases List.mem_cons.mp hq with rfl | hq
    · exact ⟨by simp, fun part hpart => by
        rcases List.mem_cons.mp hpart with rfl | h
        · exact ⟨hk, hsep⟩
        · exact absurd h (List.not_mem_nil part)⟩
    · exact ih hrest q hq
  | case5 k m rest ih =>
    intro hwf q hq
    obtain ⟨hk, hsep, _, _, hrest⟩ := (wfEntries_cons sep k _ rest).mp hwf
    rw [leafPairsE] at hq
    rcases List.mem_cons.mp hq with rfl | hq
    · exact ⟨by simp, fun part hpart => by
        rcases List.mem_cons.mp hpart with rfl | h
        · exact ⟨hk, hsep⟩
        · exact absurd h (List.not_mem_nil part)⟩
    · exact ih hrest q hq
  | case6 k s rest ih =>
    intro hwf q hq
    obtain ⟨hk, hsep, _, _, hrest⟩ := (wfEntries_cons sep k _ rest).mp hwf
    rw [leafPairsE] at hq
    rcases List.mem_cons.mp hq with rfl | hq
    · exact ⟨by simp, fun part hpart => by
        rcases List.mem_cons.mp hpart with rfl | h
        · exact ⟨hk, hsep⟩
        · exact absurd h (List.not_mem_nil part)⟩
    · exact ih hrest q hq
  | case7 k elems rest ih =>
    intro hwf q hq
    obtain ⟨hk, hsep, _, _, hrest⟩ := (wfEntries_cons sep k _ rest).mp hwf
    rw [leafPairsE] at hq
    rcases List.mem_cons.mp hq with rfl | hq
    · exact ⟨by simp, fun part hpart => by
        rcases List.mem_cons.mp hpart with rfl | h
        · exact ⟨hk, hsep⟩
        · exact absurd h (List.not_mem_nil part)⟩
    · exact ih hrest q hq

lemma leafPairsE_ne_nil (sep : Char) : ∀ (entries : List (List Char × JsValue)),
    wfEntries sep entries = true → entries ≠ [] → leafPairsE entries ≠ [] := by
  intro entries
  induction entries using leafPairsE.induct with
  | case1 => intro _ h; exact absurd rfl h
  | case2 k entries2 rest ih1 ih2 =>
    intro hwf _
    obtain ⟨_, _, _, hv, _⟩ := (wfEntries_cons sep k _ rest).mp hwf
    obtain ⟨hne2, hwf2⟩ := (wfVal_obj sep entries2).mp hv
    rw [leafPairsE]
    intro hcontra
    rcases List.append_eq_nil.mp hcontra with ⟨hmap, _⟩
    exact ih1 hwf2 hne2 (List.map_eq_nil_iff.mp hmap)
  | case3 k rest ih => intro _ _; rw [leafPairsE]; exact List.cons_ne_nil _ _
  | case4 k b rest ih => intro _ _; rw [leafPairsE]; exact List.cons_ne_nil _ _
  | case5 k m rest ih => intro _ _; rw [leafPairsE]; exact List.cons_ne_nil _ _
  | case6 k s rest ih => intro _ _; rw [leafPairsE]; exact List.cons_ne_nil _ _
  | case7 k elems rest ih => intro _ _; rw [leafPairsE]; exact List.cons_ne_nil _ _

lemma extractLeaf_step (sep : Char) (D : Nat) (k : List Char) (v0 : JsValue)
    (rest : List (List Char × JsValue)) (pre : List Char) (depth : Nat)
    (acc : List (List Char))
    (hleaf : leafPairsE ((k, v0) :: rest) = ([k], v0) :: leafPairsE rest)
    (hstep : extractKeysAux sep D ((k, v0) :: rest) pre depth acc =
      extractKeysAux sep D rest pre depth
        (addKey acc (if pre = [] then k else pre ++ sep :: k)))
    (ih : wfEntries sep rest = true → depth + objDepthE rest < D →
      (∀ q ∈ leafPairsE rest, joinPre sep pre q.1 ∉
        addKey acc (if pre = [] then k else pre ++ sep :: k)) →
      extractKeysAux sep D rest pre depth
          (addKey acc (if pre = [] then k else pre ++ sep :: k)) =
        addKey acc (if pre = [] then k else pre ++ sep :: k) ++
          (leafPairsE rest).map (fun q => joinPre sep pre q.1))
    (hwf : wfEntries sep ((k, v0) :: rest) = true)
    (hdep : depth + objDepthE ((k, v0) :: rest) < D)
    (hfresh : ∀ q ∈ leafPairsE ((k, v0) :: rest), joinPre sep pre q.1 ∉ acc) :
    extractKeysAux sep D ((k, v0) :: rest) pre depth acc =
      acc ++ (leafPairsE ((k, v0) :: rest)).map (fun q => joinPre sep pre q.1) := by
  obtain ⟨hk, hsep, hdisj, _, hrest⟩ := (wfEntries_cons sep k v0 rest).mp hwf
  rw [objDepthE] at hdep
  have hfk : joinPre sep pre [k] ∉ acc :=
    hfresh ([k], v0) (by rw [hleaf]; exact List.mem_cons_self _ _)
  have hfkite : (if pre = [] then k else pre ++ sep :: k) ∉ acc := by
    rw [← joinPre_single sep pre k]; exact hfk
  have haddKey : addKey acc (if pre = [] then k else pre ++ sep :: k) =
      acc ++ [if pre = [] then k else pre ++ sep :: k] := by
    rw [addKey, if_neg hfkite]
  have hfresh' : ∀ q ∈ leafPairsE rest, joinPre sep pre q.1 ∉
      addKey acc (if pre = [] then k else pre ++ sep :: k) := by
    intro q hq
    rw [haddKey]
    intro hmem
    rcases List.mem_append.mp hmem with h | h
    · exact hfresh q (by rw [hleaf]; exact List.mem_cons_of_mem _ hq) h
    · rw [List.mem_singleton] at h
      rw [← joinPre_single sep pre k] at h
      obtain ⟨k', p', hp, v', hv⟩ := leafPairsE_head rest q hq
      have hq_wf := leafPairsE_path_wf sep rest hrest q hq
      have hinj := joinPre_inj sep pre q.1 [k]
        (fun x hx => (hq_wf.2 x hx).2)
        (fun x hx => by rw [List.mem_singleton] at hx; subst hx; exact hsep)
        hq_wf.1 (by simp) h
      rw [hp, List.cons.injEq] at hinj
      exact hdisj (k', v') hv hinj.1
  rw [hstep, ih hrest (by omega) hfresh', haddKey, hleaf, List.map_cons,
    List.append_assoc, List.singleton_append, ← joinPre_single sep pre k]

set_option maxHeartbeats 1000000 in
lemma extractKeysAux_spec (sep : Char) (D : Nat) :
    ∀ (entries : List (List Char × JsValue)) (pre : List Char) (depth : Nat)
      (acc : List (List Char)),
      wfEntries sep entries = true →
      depth + objDepthE entries < D →
      (∀ q ∈ leafPairsE entries, joinPre sep pre q.1 ∉ acc) →
      extractKeysAux sep D entries pre depth acc =
        acc ++ (leafPairsE entries).map (fun q => joinPre sep pre q.1) := by
  intro entries pre depth acc
  induction entries, pre, depth, acc using extractKeysAux.induct sep D with
  | case1 pre depth acc =>
    intro _ _ _
    simp [extractKeysAux, leafPairsE]
  | case2 k entries2 rest pre depth acc ih2 ih1 =>
    intro hwf hdep hfresh
    obtain ⟨hk, hsep, hdisj, hv, hrest⟩ := (wfEntries_cons sep k _ rest).mp hwf
    obtain ⟨hne2, hwf2⟩ := (wfVal_obj sep entries2).mp hv
    rw [objDepthE, objDepth] at hdep
    have hcap : ¬ (D ≤ depth + 1) := by omega
    try simp only [dite_eq_ite] at ih1 ih2
    rw [if_neg hcap] at ih1
    have hinner := ih2 hwf2 (by omega) (fun q hq => by
      have hpw := leafPairsE_path_wf sep entries2 hwf2 q hq
      have hm := hfresh (k :: q.1, q.2) (by
        rw [leafPairsE]
        exact List.mem_append_left _ (List.mem_map.mpr ⟨q, hq, rfl⟩))
      rw [joinPre_step sep pre k q.1 hk hpw.1] at hm
      exact hm)
    rw [hinner] at ih1
    have hfresh_rest : ∀ q ∈ leafPairsE rest, joinPre sep pre q.1 ∉
        acc ++ (leafPairsE entries2).map
          (fun q => joinPre sep (if pre = [] then k else pre ++ sep :: k) q.1) := by
      intro q hq hmem
      rcases List.mem_append.mp hmem with h | h
      · exact hfresh q (by rw [leafPairsE]; exact List.mem_append_right _ hq) h
      · obtain ⟨q2, hq2, heq⟩ := List.mem_map.mp h
        have hpw2 := leafPairsE_path_wf sep entries2 hwf2 q2 hq2
        rw [← joinPre_step sep pre k q2.1 hk hpw2.1] at heq
        obtain ⟨k', p', hp, v', hv'⟩ := leafPairsE_head rest q hq
        have hq_wf := leafPairsE_path_wf sep rest hrest q hq
        have hinj := joinPre_inj sep pre (k :: q2.1) q.1
          (fun x hx => by
            rcases List.mem_cons.mp hx with rfl | hx
            · exact hsep
            · exact (hpw2.2 x hx).2)
          (fun x hx => (hq_wf.2 x hx).2)
          (by simp) hq_wf.1 heq
        rw [hp, List.cons.injEq] at hinj
        exact hdisj (k', v') hv' hinj.1.symm
    rw [extractKeysAux, if_neg hcap, hinner, ih1 hrest (by omega) hfresh_rest,
      leafPairsE, List.map_append, List.map_map, List.append_assoc]
    congr 2
    apply List.map_congr_left
    intro q hq
    have hpw := leafPairsE_path_wf sep entries2 hwf2 q hq
    exact ((joinPre_step sep pre k q.1 hk hpw.1).symm : _)
  | case3 k rest pre depth acc ih =>
    intro hwf hdep hfresh
    try simp only [dite_eq_ite] at ih
    exact extractLeaf_step sep D k JsValue.null rest pre depth acc
      (by rw [leafPairsE]) (by rw [extractKeysAux]) ih hwf hdep hfresh
  | case4 k b rest pre depth acc ih =>
    intro hwf hdep hfresh
    try simp only [dite_eq_ite] at ih
    exact extractLeaf_step sep D k (JsValue.bool b) rest pre depth acc
      (by rw [leafPairsE]) (by rw [extractKeysAux]) ih hwf hdep hfresh
  | case5 k m rest pre depth acc ih =>
    intro hwf hdep hfresh
    try simp only [dite_eq_ite] at ih
    exact extractLeaf_step sep D k (JsValue.num m) rest pre depth acc
      (by rw [leafPairsE]) (by rw [extractKeysAux]) ih hwf hdep hfresh
  | case6 k s rest pre depth acc ih =>
    intro hwf hdep hfresh
    try simp only [dite_eq_ite] at ih
    exact extractLeaf_step sep D k (JsValue.str s) rest pre depth acc
      (by rw [leafPairsE]) (by rw [extractKeysAux]) ih hwf hdep hfresh
  | case7 k elems rest pre depth acc ih =>
    intro hwf hdep hfresh
    try simp only [dite_eq_ite] at ih
    exact extractLeaf_step sep D k (JsValue.arr elems) rest pre depth acc
      (by rw [leafPairsE]) (by rw [extractKeysAux]) ih hwf hdep hfresh

lemma objGet_cons_self (k : List Char) (v : JsValue)
    (rest : List (List Char × JsValue)) : objGet ((k, v) :: rest) k = some v := by
  rw [objGet, if_pos rfl]

lemma objGet_cons_ne (k key : List Char) (v : JsValue)
    (rest : List (List Char × JsValue)) (h : k ≠ key) :
    objGet ((k, v) :: rest) key = objGet rest key := by
  rw [objGet, if_neg h]

lemma walkKeys_obj_cons (entries : List (List Char × JsValue)) (key : List Char)
    (rest : List (List Char) ) (v2 : JsValue) (h : objGet entries key = some v2) :
    walkKeys (JsValue.obj entries) (key :: rest) = walkKeys v2 rest := by
  rw [walkKeys, h]

lemma walkKeys_leaf (sep : Char) : ∀ (entries : List (List Char × JsValue)),
    wfEntries sep entries = true →
    ∀ q ∈ leafPairsE entries, walkKeys (JsValue.obj entries) q.1 = some q.2 := by
  intro entries
  induction entries using leafPairsE.induct with
  | case1 => intro _ q hq; exact absurd hq (by simp [leafPairsE])
  | case2 k entries2 rest ih1 ih2 =>
    intro hwf q hq
    obtain ⟨hk, hsep, hdisj, hv, hrest⟩ := (wfEntries_cons sep k _ rest).mp hwf
    obtain ⟨hne2, hwf2⟩ := (wfVal_obj sep entries2).mp hv
    rw [leafPairsE] at hq
    rcases List.mem_append.mp hq with hq | hq
    · obtain ⟨q2, hq2, rfl⟩ := List.mem_map.mp hq
      rw [walkKeys_obj_cons _ k _ _ (objGet_cons_self k _ rest)]
      exact ih1 hwf2 q2 hq2
    · obtain ⟨k', p', hp, v', hv'⟩ := leafPairsE_head rest q hq
      have := ih2 hrest q hq
      rw [hp] at this ⊢
      rw [walkKeys, objGet_cons_ne k k' _ rest (fun he => hdisj (k', v') hv' he.symm)]
      rw [walkKeys] at this
      exact this
  | case3 k rest ih =>
    intro hwf q hq
    obtain ⟨hk, hsep, hdisj, _, hrest⟩ := (wfEntries_cons sep k _ rest).mp hwf
    rw [leafPairsE] at hq
    rcases List.mem_cons.mp hq with rfl | hq
    · rw [walkKeys_obj_cons _ k _ _ (objGet_cons_self k _ rest)]
      rw [walkKeys]
    · obtain ⟨k', p', hp, v', hv'⟩ := leafPairsE_head rest q hq
      have := ih hrest q hq
      rw [hp] at this ⊢
      rw [walkKeys, objGet_cons_ne k k' _ rest (fun he => hdisj (k', v') hv' he.symm)]
      rw [walkKeys] at this
      exact this
  | case4 k b rest ih =>
    intro hwf q hq
    obtain ⟨hk, hsep, hdisj, _, hrest⟩ := (wfEntries_cons sep k _ rest).mp hwf
    rw [leafPairsE] at hq
    rcases List.mem_cons.mp hq with rfl | hq
    · rw [walkKeys_obj_cons _ k _ _ (objGet_cons_self k _ rest)]
      rw [walkKeys]
    · obtain ⟨k', p', hp, v', hv'⟩ := leafPairsE_head rest q hq
      have := ih hrest q hq
      rw [hp] at this ⊢
      rw [walkKeys, objGet_cons_ne k k' _ rest (fun he => hdisj (k', v') hv' he.symm)]
      rw [walkKeys] at this
      exact this
  | case5 k m rest ih =>
    intro hwf q hq
    obtain ⟨hk, hsep, hdisj, _, hrest⟩ := (wfEntries_cons sep k _ rest).mp hwf
    rw [leafPairsE] at hq
    rcases List.mem_cons.mp hq with rfl | hq
    · rw [walkKeys_obj_cons _ k _ _ (objGet_cons_self k _ rest)]
      rw [walkKeys]
    · obtain ⟨k', p', hp, v', hv'⟩ := leafPairsE_head rest q hq
      have := ih hrest q hq
      rw [hp] at this ⊢
      rw [walkKeys, objGet_cons_ne k k' _ rest (fun he => hdisj (k', v') hv' he.symm)]
      rw [walkKeys] at this
      exact this
  | case6 k s rest ih =>
    intro hwf q hq
    obtain ⟨hk, hsep, hdisj, _, hrest⟩ := (wfEntries_cons sep k _ rest).mp hwf
    rw [leafPairsE] at hq
    rcases List.mem_cons.mp hq with rfl | hq
    · rw [walkKeys_obj_cons _ k _ _ (objGet_cons_self k _ rest)]
      rw [walkKeys]
    · obtain ⟨k', p', hp, v', hv'⟩ := leafPairsE_head rest q hq
      have := ih hrest q hq
      rw [hp] at this ⊢
      rw [walkKeys, objGet_cons_ne k k' _ rest (fun he => hdisj (k', v') hv' he.symm)]
      rw [walkKeys] at this
      exact this
  | case7 k elems rest ih =>
    intro hwf q hq
    obtain ⟨hk, hsep, hdisj, _, hrest⟩ := (wfEntries_cons sep k _ rest).mp hwf
    rw [leafPairsE] at hq
    rcases List.mem_cons.mp hq with rfl | hq
    · rw [walkKeys_obj_cons _ k _ _ (objGet_cons_self k _ rest)]
      rw [walkKeys]
    · obtain ⟨k', p', hp, v', hv'⟩ := leafPairsE_head rest q hq
      have := ih hrest q hq
      rw [hp] at this ⊢
      rw [walkKeys, objGet_cons_ne k k' _ rest (fun he => hdisj (k', v') hv' he.symm)]
      rw [walkKeys] at this
      exact this

lemma objGet_none (key : List Char) : ∀ (entries : List (List Char × JsValue)),
    (∀ e ∈ entries, e.1 ≠ key) → objGet entries key = none := by
  intro entries
  induction entries with
  | nil => intro _; rfl
  | cons e rest ih =>
    intro h
    obtain ⟨k, v⟩ := e
    rw [objGet, if_neg (h (k, v) (List.mem_cons_self _ _)),
      ih (fun e he => h e (List.mem_cons_of_mem _ he))]

lemma objGet_append_last (key : List Char) (w : JsValue) :
    ∀ (acc : List (List Char × JsValue)), (∀ e ∈ acc, e.1 ≠ key) →
    objGet (acc ++ [(key, w)]) key = some w := by
  intro acc
  induction acc with
  | nil => intro _; exact objGet_cons_self key w []
  | cons e rest ih =>
    intro h
    obtain ⟨k, v⟩ := e
    rw [List.cons_append, objGet, if_neg (h (k, v) (List.mem_cons_self _ _)),
      ih (fun e he => h e (List.mem_cons_of_mem _ he))]

lemma objSet_new (key : List Char) (v : JsValue) :
    ∀ (entries : List (List Char × JsValue)), (∀ e ∈ entries, e.1 ≠ key) →
    objSet entries key v = entries ++ [(key, v)] := by
  intro entries h
  have hany : entries.any (fun e => decide (e.1 = key)) = false := by
    rw [List.any_eq_false]
    intro e hmem
    simp only [decide_eq_true_eq]
    exact h e hmem
  rw [objSet, hany]
  simp

lemma objSet_update_last (key : List Char) (w w' : JsValue) :
    ∀ (acc : List (List Char × JsValue)), (∀ e ∈ acc, e.1 ≠ key) →
    objSet (acc ++ [(key, w)]) key w' = acc ++ [(key, w')] := by
  intro acc h
  rw [objSet, if_pos]
  · rw [List.map_append]
    congr 1
    · have : List.map (fun e => if e.1 = key then (key, w') else e) acc =
          List.map id acc := by
        apply List.map_congr_left
        intro e he
        rw [if_neg (h e he)]
        rfl
      rw [this, List.map_id]
    · simp
  · simp only [List.any_append, Bool.or_eq_true, List.any_eq_true]
    exact Or.inr ⟨(key, w), by simp, by simp⟩

lemma setKeys_group (k : List Char) :
    ∀ (qs : List (List (List Char) × JsValue)) (acc0 : List (List Char × JsValue))
      (inner : List (List Char × JsValue)),
      (∀ e ∈ acc0, e.1 ≠ k) →
      (∀ q ∈ qs, q.1 ≠ []) →
      List.foldl (fun acc q => setKeys acc q.1 q.2) (acc0 ++ [(k, JsValue.obj inner)])
          (qs.map (fun q => (k :: q.1, q.2))) =
        acc0 ++ [(k, JsValue.obj
          (List.foldl (fun acc q => setKeys acc q.1 q.2) inner qs))] := by
  intro qs
  induction qs with
  | nil => intro acc0 inner _ _; simp
  | cons q qs' ih =>
    intro acc0 inner hacc hne
    obtain ⟨qp, qv⟩ := q
    have hqp : qp ≠ [] := hne (qp, qv) (List.mem_cons_self _ _)
    obtain ⟨k2, r2, rfl⟩ : ∃ k2 r2, qp = k2 :: r2 := by
      cases qp with
      | nil => exact absurd rfl hqp
      | cons a b => exact ⟨a, b, rfl⟩
    have hget : objGet (acc0 ++ [(k, JsValue.obj inner)]) k = some (JsValue.obj inner) :=
      objGet_append_last k _ acc0 hacc
    rw [List.map_cons, List.foldl_cons, List.foldl_cons]
    dsimp only
    rw [setKeys, hget]
    dsimp only
    rw [objSet_update_last k _ _ acc0 hacc]
    exact ih acc0 _ hacc (fun q hq => hne q (List.mem_cons_of_mem _ hq))

lemma rebuild_leaf_step (sep : Char) (k : List Char) (v0 : JsValue)
    (rest : List (List Char × JsValue))
    (hleaf : leafPairsE ((k, v0) :: rest) = ([k], v0) :: leafPairsE rest)
    (ih : wfEntries sep rest = true → ∀ acc0,
      (∀ e ∈ acc0, ∀ e2 ∈ rest, e.1 ≠ e2.1) →
      List.foldl (fun acc q => setKeys acc q.1 q.2) acc0 (leafPairsE rest) = acc0 ++ rest)
    (hwf : wfEntries sep ((k, v0) :: rest) = true)
    (acc0 : List (List Char × JsValue))
    (hdisj0 : ∀ e ∈ acc0, ∀ e2 ∈ (k, v0) :: rest, e.1 ≠ e2.1) :
    List.foldl (fun acc q => setKeys acc q.1 q.2) acc0 (leafPairsE ((k, v0) :: rest)) =
      acc0 ++ (k, v0) :: rest := by
  obtain ⟨hk, hsep, hdisj, _, hrest⟩ := (wfEntries_cons sep k v0 rest).mp hwf
  have hacc0k : ∀ e ∈ acc0, e.1 ≠ k :=
    fun e he => hdisj0 e he (k, v0) (List.mem_cons_self _ _)
  have hdisj' : ∀ e ∈ acc0 ++ [(k, v0)], ∀ e2 ∈ rest, e.1 ≠ e2.1 := by
    intro e he e2 he2
    rcases List.mem_append.mp he with h | h
    · exact hdisj0 e h e2 (List.mem_cons_of_mem _ he2)
    · rw [List.mem_singleton] at h
      subst h
      exact fun hcontr => hdisj e2 he2 hcontr.symm
  rw [hleaf, List.foldl_cons]
  dsimp only
  rw [setKeys, objSet_new k v0 acc0 hacc0k, ih hrest (acc0 ++ [(k, v0)]) hdisj',
    List.append_assoc, List.singleton_append]

lemma unflatten_rebuild (sep : Char) : ∀ (entries : List (List Char × JsValue)),
    wfEntries sep entries = true →
    ∀ (acc0 : List (List Char × JsValue)),
      (∀ e ∈ acc0, ∀ e2 ∈ entries, e.1 ≠ e2.1) →
      List.foldl (fun acc q => setKeys acc q.1 q.2) acc0 (leafPairsE entries) =
        acc0 ++ entries := by
  intro entries
  induction entries using leafPairsE.induct with
  | case1 => intro _ acc0 _; simp [leafPairsE]
  | case2 k entries2 rest ih1 ih2 =>
    intro hwf acc0 hdisj0
    obtain ⟨hk, hsep, hdisj, hv, hrest⟩ := (wfEntries_cons sep k _ rest).mp hwf
    obtain ⟨hne2, hwf2⟩ := (wfVal_obj sep entries2).mp hv
    have hpairs2 : leafPairsE entries2 ≠ [] := leafPairsE_ne_nil sep entries2 hwf2 hne2
    obtain ⟨q1, qs, hq1⟩ : ∃ q1 qs, leafPairsE entries2 = q1 :: qs := by
      cases hp : leafPairsE entries2 with
      | nil => exact absurd hp hpairs2
      | cons a b => exact ⟨a, b, rfl⟩
    obtain ⟨k2, r2, hq1p⟩ : ∃ k2 r2, q1.1 = k2 :: r2 := by
      obtain ⟨k', p', hp, _, _⟩ :=
        leafPairsE_head entries2 q1 (hq1 ▸ List.mem_cons_self _ _)
      exact ⟨k', p', hp⟩
    have hacc0k : ∀ e ∈ acc0, e.1 ≠ k :=
      fun e he => hdisj0 e he (k, JsValue.obj entries2) (List.mem_cons_self _ _)
    have hqsne : ∀ q ∈ qs, q.1 ≠ [] := by
      intro q hq
      obtain ⟨k', p', hp, _, _⟩ :=
        leafPairsE_head entries2 q (hq1 ▸ List.mem_cons_of_mem _ hq)
      rw [hp]
      exact List.cons_ne_nil _ _
    have hinner : List.foldl (fun acc q => setKeys acc q.1 q.2)
        (setKeys [] (k2 :: r2) q1.2) qs = entries2 := by
      have hi := ih1 hwf2 [] (by intro e he; exact absurd he (List.not_mem_nil e))
      rw [hq1, List.foldl_cons] at hi
      rw [hq1p] at hi
      simpa using hi
    have hdisj' : ∀ e ∈ acc0 ++ [(k, JsValue.obj entries2)], ∀ e2 ∈ rest, e.1 ≠ e2.1 := by
      intro e he e2 he2
      rcases List.mem_append.mp he with h | h
      · exact hdisj0 e h e2 (List.mem_cons_of_mem _ he2)
      · rw [List.mem_singleton] at h
        subst h
        exact fun hcontr => hdisj e2 he2 hcontr.symm
    rw [leafPairsE, List.foldl_append, hq1, List.map_cons, List.foldl_cons]
    dsimp only
    rw [hq1p, setKeys, objGet_none k acc0 hacc0k]
    dsimp only
    rw [objSet_new k _ acc0 hacc0k, setKeys_group k qs acc0 _ hacc0k hqsne, hinner,
      ih2 hrest (acc0 ++ [(k, JsValue.obj entries2)]) hdisj',
      List.append_assoc, List.singleton_append]
  | case3 k rest ih =>
    intro hwf acc0 hdisj0
    exact rebuild_leaf_step sep k JsValue.null rest (by rw [leafPairsE]) ih hwf acc0 hdisj0
  | case4 k b rest ih =>
    intro hwf acc0 hdisj0
    exact rebuild_leaf_step sep k (JsValue.bool b) rest (by rw [leafPairsE]) ih hwf acc0 hdisj0
  | case5 k m rest ih =>
    intro hwf acc0 hdisj0
    exact rebuild_leaf_step sep k (JsValue.num m) rest (by rw [leafPairsE]) ih hwf acc0 hdisj0
  | case6 k s rest ih =>
    intro hwf acc0 hdisj0
    exact rebuild_leaf_step sep k (JsValue.str s) rest (by rw [leafPairsE]) ih hwf acc0 hdisj0
  | case7 k elems rest ih =>
    intro hwf acc0 hdisj0
    exact rebuild_leaf_step sep k (JsValue.arr elems) rest (by rw [leafPairsE]) ih hwf acc0 hdisj0

lemma flattenRecord_spec (D : Nat) (entries : List (List Char × JsValue))
    (hwf : wfEntries '.' entries = true)
    (hd : objDepth (JsValue.obj entries) ≤ D) :
    flattenRecord '.' D entries =
      (leafPairsE entries).map (fun q => (joinSep '.' q.1, q.2)) := by
  have hd' : 1 + objDepthE entries ≤ D := by rw [objDepth] at hd; exact hd
  have hD : ¬ (D ≤ 0) := by omega
  have hkeys : extractKeysTop '.' D entries =
      (leafPairsE entries).map (fun q => joinPre '.' [] q.1) := by
    rw [extractKeysTop, if_neg hD]
    have hs := extractKeysAux_spec '.' D entries [] 0 []
      hwf (by omega) (by intro q hq; exact List.not_mem_nil _)
    simpa using hs
  rw [flattenRecord, hkeys, List.map_map]
  apply List.map_congr_left
  intro q hq
  have hpw := leafPairsE_path_wf '.' entries hwf q hq
  have hjoin : joinPre '.' [] q.1 = joinSep '.' q.1 := by rw [joinPre, if_pos rfl]
  dsimp only [Function.comp]
  rw [hjoin, getNestedValue,
    splitOnChar_joinSep '.' q.1 (fun x hx => (hpw.2 x hx).2) hpw.1,
    walkKeys_leaf '.' entries hwf q hq, Option.getD_some]

/-- C5 (amended): for a record whose object-nesting depth is at most
maxNestingDepth, whose nested objects are all nonempty, whose keys are
nonempty, dot-free and unique at each level, and with the default
nestingSeparator '.' (the only one setNestedValue honours, since it splits
on the literal dot), flattening with extractKeysRecursive plus
getNestedValue and unflattening the pairs with setNestedValue reproduces
the record exactly. -/
theorem c5_flatten_unflatten_roundtrip (D : Nat) (entries : List (List Char × JsValue))
    (hwf : wfEntries '.' entries = true)
    (hd : objDepth (JsValue.obj entries) ≤ D) :
    flattenUnflatten '.' D entries = entries := by
  rw [flattenUnflatten, flattenRecord_spec D entries hwf hd, unflattenPairs,
    List.foldl_map]
  have hext : List.foldl (fun acc q => setNestedValue acc (joinSep '.' q.1) q.2) []
      (leafPairsE entries) =
      List.foldl (fun acc q => setKeys acc q.1 q.2) [] (leafPairsE entries) := by
    apply List.foldl_ext
    intro acc q hq
    have hpw := leafPairsE_path_wf '.' entries hwf q hq
    rw [setNestedValue, splitOnChar_joinSep '.' q.1 (fun x hx => (hpw.2 x hx).2) hpw.1]
  rw [hext, unflatten_rebuild '.' entries hwf []
    (by intro e he; exact absurd he (List.not_mem_nil e)), List.nil_append]

/-- C5 witness: a two-level record with a string leaf and a nested object
holding a null and a boolean round-trips exactly. -/
theorem c5_flatten_unflatten_witness :
    wfEntries '.' [(['a'], JsValue.str ['u']),
        (['b'], JsValue.obj [(['c'], JsValue.null), (['d'], JsValue.bool true)])] = true ∧
    objDepth (JsValue.obj [(['a'], JsValue.str ['u']),
        (['b'], JsValue.obj [(['c'], JsValue.null), (['d'], JsValue.bool true)])]) ≤ 3 ∧
    flattenUnflatten '.' 3 [(['a'], JsValue.str ['u']),
        (['b'], JsValue.obj [(['c'], JsValue.null), (['d'], JsValue.bool true)])] =
      [(['a'], JsValue.str ['u']),
        (['b'], JsValue.obj [(['c'], JsValue.null), (['d'], JsValue.bool true)])] :=
  ⟨by simp [wfEntries, wfVal], by simp [objDepth, objDepthE],
    c5_flatten_unflatten_roundtrip 3 _ (by simp [wfEntries, wfVal])
      (by simp [objDepth, objDepthE])⟩

/-- C5 counterexample to the claim as stated: the record with one key whose
value is the empty object has nesting depth 2 and only non-array object
nested values, yet extractKeysRecursive emits no key for it (Object.keys of
the empty object is empty), so the round trip returns the empty record, not
the original. -/
theorem c5_empty_object_counterexample :
    objDepth (JsValue.obj [(['a'], JsValue.obj [])]) ≤ 3 ∧
    flattenUnflatten '.' 3 [(['a'], JsValue.obj [])] = [] ∧
    ([] : List (List Char × JsValue)) ≠ [(['a'], JsValue.obj [])] := by
  refine ⟨by simp [objDepth, objDepthE], ?_, by simp⟩
  simp [flattenUnflatten, flattenRecord, extractKeysTop, extractKeysAux, unflattenPairs]

/-! ## The Record→Delimited engine: convert on parsed input (C10) -/

/-- Options of the JSONToCSVConverter (jsonToCsv.js constructor), with the
source defaults; lineEnding and quoteChar are single characters here (their
defaults), as no claim varies them. -/
structure JsonCsvOptions where
  delimiter : Char := ','
  lineEnding : Char := '\n'
  includeHeaders : Bool := true
  flattenObjects : Bool := true
  nestingSeparator : Char := '.'
  maxNestingDepth : Nat := 3
  handleNestedArrays : Bool := true
  customHeaders : Option (List (List Char)) := none

/-- The JavaScript platform string conversions formatValue relies on:
Number.prototype.toString on finite doubles, JSON.stringify, and the
String(v) conversion used by Array.prototype.join and template strings.
They are platform builtins, not repository code, so the embedding takes
them as parameters; no claim depends on their output. -/
structure JsStringify where
  numToStr : ℚ → List Char
  stringify : JsValue → List Char
  toStr : JsValue → List Char

/-- Array.prototype.join with a string separator. -/
def joinWith (sepStr : List Char) : List (List Char) → List Char
  | [] => []
  | [x] => x
  | x :: y :: rest => x ++ sepStr ++ joinWith sepStr (y :: rest)

/-- `typeof item === 'object' && item !== null` (arrays and plain objects). -/
def isObjectLike : JsValue → Bool
  | .obj _ => true
  | .arr _ => true
  | _ => false

/-- formatValue (jsonToCsv.js lines 220-268): null and undefined give the
empty string, numbers print NaN/Infinity specially, empty arrays and objects
print their literal form, nonempty ones go through JSON.stringify or a
'; '-join depending on the flatten options, and everything printable is
escaped. -/
def formatValue (o : JsonCsvOptions) (st : JsStringify) : JsValue → List Char
  | .null => []
  | .num .nan => "NaN".toList
  | .num .posInf => "Infinity".toList
  | .num .negInf => "-Infinity".toList
  | .num (.finite q) => st.numToStr q
  | .arr [] => "[]".toList
  | .arr elems =>
    if o.flattenObjects || o.handleNestedArrays then
      escapeValue o.delimiter (st.stringify (.arr elems))
    else escapeValue o.delimiter (joinWith "; ".toList (elems.map st.toStr))
  | .obj [] => "{}".toList
  | .obj entries =>
    if o.flattenObjects then escapeValue o.delimiter (st.stringify (.obj entries))
    else escapeValue o.delimiter (joinWith "; ".toList
      (entries.map (fun e => e.1 ++ ':' :: st.toStr e.2)))
  | .bool true => "true".toList
  | .bool false => "false".toList
  | .str s => escapeValue o.delimiter s

/-- A possibly-undefined property value formatted by formatValue (undefined
and null both print as the empty string). -/
def formatOpt (o : JsonCsvOptions) (st : JsStringify) : Option JsValue → List Char
  | some v => formatValue o st v
  | none => []

/-- formatRow (jsonToCsv.js): values.join(delimiter). -/
def formatRow (o : JsonCsvOptions) (vals : List (List Char)) : List Char :=
  joinWith [o.delimiter] vals

/-- Object.keys as entry list: index strings for arrays, keys for objects,
nothing for primitives. -/
def objEntriesOf : JsValue → List (List Char × JsValue)
  | .obj entries => entries
  | .arr elems =>
    ((List.range elems.length).zip elems).map (fun p => (Nat.toDigits 10 p.1, p.2))
  | _ => []

/-- extractAllKeys (jsonToCsv.js): union of the object items' own keys in
first-appearance order. -/
def extractAllKeys (items : List JsValue) : List (List Char) :=
  items.foldl (fun acc item =>
    if isObjectLike item then
      (objEntriesOf item).foldl (fun acc2 e => addKey acc2 e.1) acc
    else acc) []

/-- extractFlattenedKeys (jsonToCsv.js lines 289-300): run
extractKeysRecursive from each object-like item with the empty prefix at
depth 0 into one shared key set. -/
def extractFlattenedKeys (o : JsonCsvOptions) (items : List JsValue) :
    List (List Char) :=
  items.foldl (fun acc item =>
    if isObjectLike item then
      if o.maxNestingDepth ≤ 0 then addKey acc []
      else extractKeysAux o.nestingSeparator o.maxNestingDepth (objEntriesOf item) [] 0 acc
    else acc) []

/-- convertSimpleArray (jsonToCsv.js): optional escaped 'value' header, then
one formatted line per element. -/
def convertSimpleArray (o : JsonCsvOptions) (st : JsStringify)
    (elems : List JsValue) : List Char :=
  joinWith [o.lineEnding]
    ((if o.includeHeaders then [escapeValue o.delimiter "value".toList] else []) ++
      elems.map (formatValue o st))

/-- convertArrayOfObjects (jsonToCsv.js lines 88-125): headers are the
custom ones or the extracted keys; each object row looks its values up by
key (nested when flattening), other items print as one formatted line. -/
def convertArrayOfObjects (o : JsonCsvOptions) (st : JsStringify)
    (items : List JsValue) : List Char :=
  joinWith [o.lineEnding]
    ((if o.includeHeaders then
        [formatRow o ((o.customHeaders.getD (if o.flattenObjects then
          extractFlattenedKeys o items else extractAllKeys items)))]
      else []) ++
      items.map (fun item =>
        if isObjectLike item then
          formatRow o ((if o.flattenObjects then
              extractFlattenedKeys o items else extractAllKeys items).map
            (fun key => formatOpt o st
              (if o.flattenObjects then getNestedValue o.nestingSeparator item key
               else objGet (objEntriesOf item) key)))
        else formatValue o st item))

/-- convertObject (jsonToCsv.js lines 152-166): a header row of the keys and
one row of the formatted values. -/
def convertObject (o : JsonCsvOptions) (st : JsStringify)
    (entries : List (List Char × JsValue)) : List Char :=
  joinWith [o.lineEnding]
    ((if o.includeHeaders then [formatRow o (entries.map Prod.fst)] else []) ++
      [formatRow o (entries.map (fun e => formatValue o st e.2))])

/-- convertArray (jsonToCsv.js lines 73-86): the empty array gives the empty
string; otherwise arrays with at least one object-like item go through
convertArrayOfObjects, plain arrays through convertSimpleArray. -/
def convertArray (o : JsonCsvOptions) (st : JsStringify)
    (elems : List JsValue) : List Char :=
  if elems.length = 0 then []
  else if elems.any isObjectLike then convertArrayOfObjects o st elems
  else convertSimpleArray o st elems

/-- getColumnCount (jsonToCsv.js lines 404-409): zero when the first line is
empty, else its delimiter-split field count. -/
def getColumnCount (o : JsonCsvOptions) (csvData : List Char) : Nat :=
  match splitOnChar o.lineEnding csvData with
  | [] => 0
  | firstLine :: _ =>
    if firstLine = [] then 0 else (splitOnChar o.delimiter firstLine).length

/-- The success record of convert: serialized data, row count and column
count. -/
structure JsonCsvOk where
  data : List Char
  rows : Nat
  columns : Nat

/-- convert (jsonToCsv.js lines 26-65) after JSON.parse: empty input throws;
a parse failure (`parsed = none`) propagates to the catch; a circular parse
result throws (the check runs on the heap of the parsed value, as in the C8
model); arrays and objects serialize, anything else throws; on success the
row count is the line count of the data minus one for the header row and the
column count comes from getColumnCount. -/
def jsonConvert (o : JsonCsvOptions) (st : JsStringify) (jsonString : List Char)
    (parsed : Option JsValue) : Except (List Char) JsonCsvOk :=
  if (trimWS jsonString).length = 0 then .error "Input is empty".toList
  else
    match parsed with
    | none => .error "JSON parse error".toList
    | some data =>
      if hasCircularReference (buildVal data 0).2.1 (buildVal data 0).1 then
        .error "JSON contains circular references which cannot be converted to CSV".toList
      else
        match data with
        | .arr elems =>
          .ok ⟨convertArray o st elems,
            (splitOnChar o.lineEnding (convertArray o st elems)).length -
              (if o.includeHeaders then 1 else 0),
            getColumnCount o (convertArray o st elems)⟩
        | .obj entries =>
          .ok ⟨convertObject o st entries,
            (splitOnChar o.lineEnding (convertObject o st entries)).length -
              (if o.includeHeaders then 1 else 0),
            getColumnCount o (convertObject o st entries)⟩
        | _ => .error "JSON must be an object or array".toList

/-- C10: converting the input "[]" (JSON.parse gives the empty top-level
array) with default options succeeds rather than failing: the serialized
output is the empty string, the row count is 0 and the column count is 0,
whatever the platform string conversions do. -/
theorem c10_empty_array_succeeds (st : JsStringify) :
    jsonConvert {} st "[]".toList (some (JsValue.arr [])) =
      .ok ⟨[], 0, 0⟩ := by
  have hf := buildVal_detect_false (JsValue.arr []) 0
  simp [jsonConvert, hf, convertArray, getColumnCount, splitOnChar, trimWS, isJsWS]
